import Mathlib

/-!
# Verification of the dramavis core analysis

This file is a shallow embedding of the core analysis logic of the dramavis
repository (`dramalyzer.py`, with its input contract from `linacorpus.py`)
together with proofs about it.

Modelling conventions used throughout:

* Python character identifiers are `String`; a Python `set` of identifiers is a
  `Finset String` (the analyzed segments are duplicate-free lists, produced by
  `list(set(...))` in `linacorpus.extract_speakers`).
* Python numbers are `ℚ`: every arithmetic operation performed by the analyzed
  code (counting, summing, dividing counts) is exact on rationals.
* An exception that the analyzed code does not catch is modelled as
  `Option.none`; a caught exception is modelled by the value the handler
  stores (for instance the string sentinel `"NaN"`).
* The `"NaN"` string sentinel that the code stores into numeric fields is a
  dedicated constructor (`PyNum.nan`), distinct from every number.
-/

namespace Dramavis

/-- A numeric Python variable of the analyzed code that may hold either a
float/int or the string `"NaN"` (the sentinel the code assigns in its
exception handlers). -/
inductive PyNum where
  | num (q : ℚ)
  | nan
deriving DecidableEq

/-! ### Kernel-reducible rational arithmetic

The library operations `Rat.add`, `Rat.mul`, `Rat.inv`, `Rat.sub` are marked
irreducible, which blocks evaluation of concrete program runs by `decide`.
The embedding therefore uses the following wrappers, which compute through
`mkRat`/`Rat.divInt` and are provably equal to the field operations. -/

/-- Reducible addition on `ℚ`. -/
def qadd (a b : ℚ) : ℚ := mkRat (a.num * b.den + b.num * a.den) (a.den * b.den)

/-- Reducible multiplication on `ℚ`. -/
def qmul (a b : ℚ) : ℚ := mkRat (a.num * b.num) (a.den * b.den)

/-- Reducible inverse on `ℚ` (with `qinv 0 = 0`, as for `Rat.inv`). -/
def qinv (a : ℚ) : ℚ := Rat.divInt a.den a.num

/-- Reducible division on `ℚ` (Python `/`; the caller is responsible for the
zero-divisor check, since Python raises there while `qdiv a 0 = 0`). -/
def qdiv (a b : ℚ) : ℚ := qmul a (qinv b)

/-- Reducible subtraction on `ℚ`. -/
def qsub (a b : ℚ) : ℚ := qadd a (-b)

/-- Reducible sum of a list of rationals (Python `sum`). -/
def qsum (l : List ℚ) : ℚ := l.foldr qadd 0

@[simp] theorem qadd_eq (a b : ℚ) : qadd a b = a + b := (Rat.add_def' a b).symm

@[simp] theorem qmul_eq (a b : ℚ) : qmul a b = a * b := by
  rw [qmul, Rat.mul_def, Rat.normalize_eq_mkRat]

@[simp] theorem qinv_eq (a : ℚ) : qinv a = a⁻¹ := (Rat.inv_def a).symm

@[simp] theorem qdiv_eq (a b : ℚ) : qdiv a b = a / b := by
  rw [qdiv, qmul_eq, qinv_eq, Rat.div_def]
  rfl

@[simp] theorem qsub_eq (a b : ℚ) : qsub a b = a - b := by
  rw [qsub, qadd_eq, sub_eq_add_neg]

@[simp] theorem qsum_eq (l : List ℚ) : qsum l = l.sum := by
  induction l with
  | nil => rfl
  | cons a l ih => simp [qsum, List.foldr_cons, ih.symm]

/-- Reducible binary maximum on `ℚ` (Python `max` on two values). -/
def qmax (a b : ℚ) : ℚ := if a ≤ b then b else a

@[simp] theorem qmax_eq (a b : ℚ) : qmax a b = max a b := by
  rw [qmax, max_def]

/-- Python `max` over the values of a column / `pandas.Series.max`:
`none` on an empty column. -/
def listMax : List ℚ → Option ℚ
  | [] => none
  | a :: l => some ((listMax l).elim a (qmax a))

/-- Python `min` over a column (`min` raises `ValueError` on an empty
sequence, modelled as `none`). -/
def qmin (a b : ℚ) : ℚ := if a ≤ b then a else b

@[simp] theorem qmin_eq (a b : ℚ) : qmin a b = min a b := by
  rw [qmin, min_def]

/-- Python `min` over a list. -/
def listMin : List ℚ → Option ℚ
  | [] => none
  | a :: l => some ((listMin l).elim a (qmin a))

/-! ## Temporal dynamics: `get_drama_change_rate`, `get_final_scene_size` -/

/-- One iteration of the loop body of `DramaAnalyzer.get_drama_change_rate`
(dramalyzer.py lines 142-148).  `s` and `t` are the Python sets built from the
two adjacent segments, `u` their intersection; the Python subtraction is on
`int`, hence the `ℤ` coercion under `Int.natAbs`.  The division
`cr / cr_sum` raises an uncaught `ZeroDivisionError` when `cr_sum = 0`,
modelled as `none`. -/
def changeRatePair (x y : List String) : Option ℚ :=
  let s := x.toFinset
  let t := y.toFinset
  let u := s ∩ t
  let cr : ℕ := ((s.card : ℤ) - (u.card : ℤ)).natAbs + ((u.card : ℤ) - (t.card : ℤ)).natAbs
  let crSum : ℕ := (s ∪ t).card
  if crSum = 0 then none else some (qdiv (cr : ℚ) (crSum : ℚ))

/-- `DramaAnalyzer.get_drama_change_rate` (dramalyzer.py lines 140-149): the
loop runs over `zip_longest(segments[:-1], segments[1:])`, which on two lists
of equal length `N-1` is an ordinary zip.  An uncaught exception in any
iteration aborts the whole call (`none`). -/
def get_drama_change_rate (segments : List (List String)) : Option (List ℚ) :=
  (segments.dropLast.zip segments.tail).mapM fun p => changeRatePair p.1 p.2

/-- `DramaAnalyzer.get_final_scene_size` (dramalyzer.py lines 130-132):
`self.segments[-1]` raises an uncaught `IndexError` on an empty segment list,
and the division by `self.n_personae` raises an uncaught `ZeroDivisionError`
when the character universe is empty. -/
def get_final_scene_size (segments : List (List String)) (n_personae : ℕ) : Option ℚ :=
  match segments.getLast? with
  | none => none
  | some last => if n_personae = 0 then none
    else some (qdiv (last.length : ℚ) (n_personae : ℚ))

/-- Modelled from the spec (§4.6): the Jaccard distance between two segments,
`|symmetric difference| / |union|`. -/
def jaccardDistance (s t : Finset String) : ℚ :=
  qdiv ((((s \ t) ∪ (t \ s)).card : ℚ)) (((s ∪ t).card : ℚ))

lemma changeRatePair_eq_jaccard (x y : List String)
    (h : (x.toFinset ∪ y.toFinset).Nonempty) :
    changeRatePair x y = some (jaccardDistance x.toFinset y.toFinset) := by
  unfold changeRatePair jaccardDistance
  set s := x.toFinset
  set t := y.toFinset
  have hsum : (s ∪ t).card ≠ 0 := Finset.card_ne_zero_of_mem h.choose_spec
  have h1 : (s \ t).card + (s ∩ t).card = s.card := Finset.card_sdiff_add_card_inter s t
  have h2 : (t \ s).card + (t ∩ s).card = t.card := Finset.card_sdiff_add_card_inter t s
  have hcomm : (t ∩ s).card = (s ∩ t).card := by rw [Finset.inter_comm]
  have hdisj : Disjoint (s \ t) (t \ s) := disjoint_sdiff_sdiff
  have hcard : ((s \ t) ∪ (t \ s)).card = (s \ t).card + (t \ s).card :=
    Finset.card_union_of_disjoint hdisj
  have hcr : ((s.card : ℤ) - ((s ∩ t).card : ℤ)).natAbs
      + (((s ∩ t).card : ℤ) - (t.card : ℤ)).natAbs = ((s \ t) ∪ (t \ s)).card := by
    omega
  simp only [if_neg hsum, hcr]

/-- Every adjacent pair of the zipped list consists of consecutive segments. -/
lemma zip_pairs_get (segments : List (List String)) (i : ℕ)
    (hi : i + 1 < segments.length) :
    (segments.dropLast.zip segments.tail)[i]? =
      some (segments[i], segments[i+1]) := by
  have hld : segments.dropLast.length = segments.length - 1 := segments.length_dropLast
  have hlt : segments.tail.length = segments.length - 1 := segments.length_tail
  have hi1 : i < segments.dropLast.length := by omega
  have hi2 : i < segments.tail.length := by omega
  have hiz : i < (segments.dropLast.zip segments.tail).length := by
    rw [List.length_zip]; omega
  rw [List.getElem?_eq_getElem hiz, List.getElem_zip]
  rw [List.getElem_dropLast, List.getElem_tail]

/-- If every element maps to `some`, `mapM` over `Option` returns the mapped
list. -/
lemma mapM_eq_some_map {α β : Type} (f : α → Option β) (g : α → β)
    (l : List α) (h : ∀ a ∈ l, f a = some (g a)) :
    l.mapM f = some (l.map g) := by
  induction l with
  | nil => rfl
  | cons a l ih =>
    rw [List.mapM_cons, h a (List.mem_cons_self a l),
      ih (fun b hb => h b (List.mem_cons_of_mem a hb))]
    rfl

/-- C4 counterexample: the public core computations are not total on every
valid Segment Sequence.  `get_drama_change_rate` raises an uncaught
`ZeroDivisionError` on two consecutive empty segments, and
`get_final_scene_size` raises an uncaught `IndexError` on an empty sequence
and an uncaught `ZeroDivisionError` on an empty character universe. -/
theorem change_rate_fault_on_empty_pair :
    get_drama_change_rate [[], []] = none ∧
    get_final_scene_size [] 5 = none ∧
    get_final_scene_size [["A"]] 0 = none := by
  refine ⟨rfl, rfl, rfl⟩

/-- C4 (amended): `get_drama_change_rate` is total whenever every adjacent
pair of segments has a nonempty union, and `get_final_scene_size` is total
whenever the segment sequence and the character universe are both nonempty;
on the excluded inputs each raises an unhandled fault. -/
theorem core_totality_under_preconditions :
    (∀ segments : List (List String),
      (∀ x y, (x, y) ∈ segments.dropLast.zip segments.tail →
        (x.toFinset ∪ y.toFinset).Nonempty) →
      (get_drama_change_rate segments).isSome = true) ∧
    (∀ (segments : List (List String)) (n : ℕ), segments ≠ [] → n ≠ 0 →
      (get_final_scene_size segments n).isSome = true) := by
  constructor
  · intro segments h
    rw [get_drama_change_rate, mapM_eq_some_map _
      (fun p => jaccardDistance p.1.toFinset p.2.toFinset) _ ?_]
    · rfl
    · intro a ha
      exact changeRatePair_eq_jaccard a.1 a.2 (h a.1 a.2 ha)
  · intro segments n hs hn
    rw [get_final_scene_size]
    rcases hl : segments.getLast? with _ | last
    · exact absurd (List.getLast?_eq_none_iff.mp hl) hs
    · simp [hn]

/-- C4 witness: the totality theorem applied at concrete inputs. -/
theorem core_totality_witness :
    (get_drama_change_rate [["A"], ["B"]]).isSome = true ∧
    (get_final_scene_size [["A"]] 2).isSome = true := by
  refine ⟨core_totality_under_preconditions.1 [["A"], ["B"]] ?_,
    core_totality_under_preconditions.2 [["A"]] 2 (by decide) (by decide)⟩
  intro x y hxy
  have hx : (x, y) = (["A"], ["B"]) := List.mem_singleton.mp hxy
  rw [Prod.mk.injEq] at hx
  rw [hx.1, hx.2]
  decide

/-- C7 counterexample: the change-rate sequence does not exist for every
Segment Sequence of `N ≥ 2` segments; the computation aborts with an uncaught
`ZeroDivisionError` as soon as two adjacent segments are both empty. -/
theorem change_rate_no_result_on_empty_union :
    get_drama_change_rate [["A"], [], []] = none := by
  rfl

/-- C7 (amended): provided every adjacent pair of segments has a nonempty
union, the change-rate sequence has length `N-1` and its `k`-th element is
the Jaccard distance of segments `k` and `k+1` (symmetric difference over
union). -/
theorem change_rate_is_jaccard (segments : List (List String))
    (h : ∀ i, i + 1 < segments.length →
      ((segments[i]!).toFinset ∪ (segments[i+1]!).toFinset).Nonempty) :
    ∃ l, get_drama_change_rate segments = some l ∧
      l.length = segments.length - 1 ∧
      ∀ i, i + 1 < segments.length →
        l[i]? = some (jaccardDistance (segments[i]!).toFinset
          ((segments[i+1]!).toFinset)) := by
  have hmem : ∀ a ∈ segments.dropLast.zip segments.tail,
      changeRatePair a.1 a.2 = some (jaccardDistance a.1.toFinset a.2.toFinset) := by
    intro a ha
    obtain ⟨i, hiz, hget⟩ := List.getElem_of_mem ha
    have hlen : i + 1 < segments.length := by
      rw [List.length_zip, segments.length_dropLast, segments.length_tail] at hiz
      omega
    have := zip_pairs_get segments i hlen
    rw [List.getElem?_eq_getElem hiz, hget] at this
    have hpair : a = (segments[i], segments[i+1]) := by
      exact Option.some.inj this
    have h1 : segments[i]! = segments[i] := getElem!_pos segments i (by omega)
    have h2 : segments[i+1]! = segments[i+1] := getElem!_pos segments (i+1) (by omega)
    have hne := h i hlen
    rw [h1, h2] at hne
    rw [hpair]
    exact changeRatePair_eq_jaccard _ _ hne
  refine ⟨_, mapM_eq_some_map _ _ _ hmem, ?_, ?_⟩
  · rw [List.length_map, List.length_zip, segments.length_dropLast,
      segments.length_tail]
    omega
  · intro i hlen
    have hiz : i < (segments.dropLast.zip segments.tail).length := by
      rw [List.length_zip, segments.length_dropLast, segments.length_tail]
      omega
    rw [List.getElem?_map, zip_pairs_get segments i hlen]
    have h1 : segments[i]! = segments[i] := getElem!_pos segments i (by omega)
    have h2 : segments[i+1]! = segments[i+1] := getElem!_pos segments (i+1) (by omega)
    rw [h1, h2]
    rfl

/-- C7 witness: applied to `[{A,B}, {B,C}]`, the single change rate is the
Jaccard distance, which evaluates to `2/3`. -/
theorem change_rate_witness :
    (∃ l, get_drama_change_rate [["A","B"], ["B","C"]] = some l ∧
      l.length = 1 ∧
      l[0]? = some (jaccardDistance (["A","B"] : List String).toFinset
        (["B","C"] : List String).toFinset)) ∧
    jaccardDistance (["A","B"] : List String).toFinset
      (["B","C"] : List String).toFinset = 2/3 := by
  constructor
  · obtain ⟨l, h1, h2, h3⟩ := change_rate_is_jaccard [["A","B"], ["B","C"]]
      (by intro i hi
          have : i = 0 := by simp at hi; omega
          subst this
          decide)
    exact ⟨l, h1, h2, by have := h3 0 (by decide); simpa using this⟩
  · have h1 : ((["A","B"].toFinset \ ["B","C"].toFinset
        ∪ ["B","C"].toFinset \ ["A","B"].toFinset) : Finset String).card = 2 := by decide
    have h2 : ((["A","B"].toFinset ∪ ["B","C"].toFinset) : Finset String).card = 3 := by
      decide
    simp only [jaccardDistance]
    rw [h1, h2, qdiv_eq]
    norm_num

/-! ## Null-Model Sampler: `randomize_graph`

`DramaAnalyzer.randomize_graph` (dramalyzer.py lines 417-461) draws random
graphs with `nx.gnm_random_graph(n, e)` and accumulates
`nx.average_clustering` and `nx.average_shortest_path_length` results.  The
random draws are the only source of non-determinism; the embedding abstracts
each drawn graph by the outcome of the single metric computed on it:

* `cd i` is the result of `nx.average_clustering` on the clustering draw of
  sample `i` (`none` = the caught `ZeroDivisionError`);
* `pd k` is the result of `nx.average_shortest_path_length` on the `k`-th
  path-length draw, counted globally across samples and retries (`none` = any
  exception raised by the draw or the computation).

The local variable `randavgpathl` starts as the int `0` and is assigned the
string `"NaN"` when a sample exhausts its retry budget, hence its type
`PyNum`: once it holds `"NaN"`, the statement
`randavgpathl += nx.average_shortest_path_length(R)` raises `TypeError`
(string + float), which the bare `except` swallows. -/

/-- The inner `while True` retry loop of `randomize_graph` for one sample:
attempt `j` (fuel counts down from 51; the loop breaks after a failing
attempt with `j > 50`, so exactly 51 attempts happen).  On a successful
attempt with a numeric accumulator, the sample's value is added, the success
counter `a` is incremented, and the loop breaks; any other attempt fails and
consumes one draw; when the fuel is exhausted the accumulator is overwritten
with `"NaN"`. -/
def pathAttempts (pd : ℕ → Option ℚ) :
    ℕ → PyNum → ℕ → ℕ → PyNum × ℕ × ℕ
  | 0, _, a, k => (.nan, a, k)
  | fuel+1, acc, a, k =>
    match acc, pd k with
    | .num q, some v => (.num (qadd q v), a + 1, k + 1)
    | .num q, none => pathAttempts pd fuel (.num q) a (k + 1)
    | .nan, _ => pathAttempts pd fuel .nan a (k + 1)

/-- The mutable state of the `randomize_graph` loop. -/
structure RandState where
  randcluster : ℚ
  c : ℕ
  randavgpathl : PyNum
  a : ℕ
  k : ℕ
deriving DecidableEq

/-- One iteration of the `for i in range(self.randomization)` loop of
`randomize_graph`: the clustering accumulation (with its caught
`ZeroDivisionError`), then the path-length retry loop. -/
def randomizeStep (cd pd : ℕ → Option ℚ) (i : ℕ) (st : RandState) : RandState :=
  let cl := match cd i with
    | some v => (qadd st.randcluster v, st.c + 1)
    | none => (st.randcluster, st.c)
  let pl := pathAttempts pd 51 st.randavgpathl st.a st.k
  ⟨cl.1, cl.2, pl.1, pl.2.1, pl.2.2⟩

/-- The full loop of `randomize_graph` over `R` samples
(`R = self.randomization`, 1000 by default and 50 after the
largest-component fallback in `analyze_graph`). -/
def randomizeRun (cd pd : ℕ → Option ℚ) (R : ℕ) : RandState :=
  (List.range R).foldl (fun st i => randomizeStep cd pd i st) ⟨0, 0, .num 0, 0, 0⟩

/-- `DramaAnalyzer.randomize_graph`: the final divisions, each wrapped in a
bare `try/except` that stores `"NaN"`.  `randavgpathl / a` raises `TypeError`
when the accumulator holds the string `"NaN"`, and `ZeroDivisionError` when
`a = 0`; `randcluster / c` raises `ZeroDivisionError` when `c = 0`.  Returns
`(randavgpathl, randcluster)`. -/
def randomize_graph (cd pd : ℕ → Option ℚ) (R : ℕ) : PyNum × PyNum :=
  let st := randomizeRun cd pd R
  let randavgpathl : PyNum := match st.randavgpathl with
    | .nan => .nan
    | .num s => if st.a = 0 then .nan else .num (qdiv s (st.a : ℚ))
  let randcluster : PyNum :=
    if st.c = 0 then .nan else .num (qdiv st.randcluster (st.c : ℚ))
  (randavgpathl, randcluster)

/-- Outcome draws for the counterexample run: sample 0 succeeds at once with
value 1, sample 1 fails all 51 attempts (draws 1..51), sample 2 would succeed
(draw 52 onwards) but the accumulator already holds `"NaN"`. -/
def pdCex (k : ℕ) : Option ℚ := if k = 0 then some 1 else if k ≤ 51 then none else some 1

/-- C2 counterexample: with the draws `pdCex`, the run has one successful
path-length sample (success counter `a = 1`, contribution `1`), yet the final
`randavgpathl` is the `"NaN"` sentinel — contradicting the claim that the
final value is the sum of successful contributions divided by the success
count, `NaN` only when the success count is zero.  Earlier contributions are
not kept: the retry-exhausted sample overwrites the accumulator. -/
theorem randavgpathl_nan_despite_success :
    (randomizeRun (fun _ => none) pdCex 3).a = 1 ∧
    (randomize_graph (fun _ => none) pdCex 3).1 = .nan := by
  constructor
  · decide
  · decide

/-- First success within `fuel` retry attempts starting at draw `k`: the
value found and the next unused draw index. -/
def firstHit (pd : ℕ → Option ℚ) : ℕ → ℕ → Option (ℚ × ℕ)
  | 0, _ => none
  | fuel+1, k =>
    match pd k with
    | some v => some (v, k + 1)
    | none => firstHit pd fuel (k + 1)

/-- Modelled from the amended claim: the per-sample path-length outcomes of a
run in which no earlier sample has yet exhausted its retries — `some v` when
the sample's first success has value `v`, `none` when all 51 attempts fail. -/
def pathOutcomes (pd : ℕ → Option ℚ) : ℕ → ℕ → List (Option ℚ)
  | 0, _ => []
  | R+1, k =>
    match firstHit pd 51 k with
    | some (v, k2) => some v :: pathOutcomes pd R k2
    | none => none :: pathOutcomes pd R (k + 51)

/-- The path-length components of the sampling loop, iterated over `R`
samples (they do not depend on the clustering draws). -/
def pathRun (pd : ℕ → Option ℚ) : ℕ → PyNum → ℕ → ℕ → PyNum × ℕ × ℕ
  | 0, acc, a, k => (acc, a, k)
  | R+1, acc, a, k =>
    let s := pathAttempts pd 51 acc a k
    pathRun pd R s.1 s.2.1 s.2.2

lemma pathAttempts_nan (pd : ℕ → Option ℚ) (fuel a k : ℕ) :
    pathAttempts pd fuel .nan a k = (.nan, a, k + fuel) := by
  induction fuel generalizing k with
  | zero => rfl
  | succ fuel ih =>
    rw [pathAttempts]
    rcases pd k with _ | v <;> rw [ih] <;> ring_nf

lemma pathAttempts_num (pd : ℕ → Option ℚ) (fuel : ℕ) (q : ℚ) (a k : ℕ) :
    pathAttempts pd fuel (.num q) a k =
      match firstHit pd fuel k with
      | some (v, k2) => (.num (q + v), a + 1, k2)
      | none => (.nan, a, k + fuel) := by
  induction fuel generalizing k with
  | zero => rfl
  | succ fuel ih =>
    cases hpd : pd k with
    | some v => simp [pathAttempts, firstHit, hpd]
    | none =>
      simp only [pathAttempts, firstHit, hpd]
      rw [ih]
      rcases hf : firstHit pd fuel (k + 1) with _ | ⟨v, k2⟩ <;> (simp; try omega)

lemma pathRun_nan (pd : ℕ → Option ℚ) (R a k : ℕ) :
    pathRun pd R .nan a k = (.nan, a, k + 51 * R) := by
  induction R generalizing k with
  | zero => simp [pathRun]
  | succ R ih =>
    rw [pathRun]
    simp only [pathAttempts_nan, ih]
    ring_nf

lemma pathRun_exhaust (pd : ℕ → Option ℚ) (R : ℕ) (q : ℚ) (a k : ℕ)
    (h : none ∈ pathOutcomes pd R k) :
    (pathRun pd R (.num q) a k).1 = .nan := by
  induction R generalizing q a k with
  | zero => simp [pathOutcomes] at h
  | succ R ih =>
    rw [pathRun]
    simp only [pathAttempts_num]
    rw [pathOutcomes] at h
    rcases hf : firstHit pd 51 k with _ | ⟨v, k2⟩
    · simp [pathRun_nan]
    · rw [hf] at h
      simp only [List.mem_cons] at h
      rcases h with h | h
      · exact absurd h.symm (by simp)
      · exact ih (q + v) (a + 1) k2 h

lemma pathRun_success (pd : ℕ → Option ℚ) (R : ℕ) (q : ℚ) (a k : ℕ)
    (h : ∀ o ∈ pathOutcomes pd R k, o.isSome = true) :
    ∃ k2, pathRun pd R (.num q) a k =
      (.num (q + ((pathOutcomes pd R k).filterMap id).sum), a + R, k2) := by
  induction R generalizing q a k with
  | zero => exact ⟨k, by simp [pathRun, pathOutcomes]⟩
  | succ R ih =>
    rw [pathRun]
    simp only [pathAttempts_num]
    rcases hf : firstHit pd 51 k with _ | ⟨v, k2⟩
    · exfalso
      have : (none : Option ℚ) ∈ pathOutcomes pd (R+1) k := by
        rw [pathOutcomes, hf]
        exact List.mem_cons_self _ _
      exact absurd (h none this) (by simp)
    · have htail : ∀ o ∈ pathOutcomes pd R k2, o.isSome = true := by
        intro o ho
        refine h o ?_
        rw [pathOutcomes, hf]
        exact List.mem_cons_of_mem _ ho
      obtain ⟨k3, hk3⟩ := ih (q + v) (a + 1) k2 htail
      refine ⟨k3, ?_⟩
      rw [hk3, pathOutcomes, hf]
      simp only [List.filterMap_cons]
      norm_num
      constructor
      · ring
      · omega

/-- The path-length components of the fold of `randomizeRun` over an
arbitrary index list depend only on the path draws. -/
lemma foldl_randomizeStep_path (cd pd : ℕ → Option ℚ) (l : List ℕ)
    (st : RandState) :
    (l.foldl (fun st i => randomizeStep cd pd i st) st).randavgpathl
        = (pathRun pd l.length st.randavgpathl st.a st.k).1 ∧
    (l.foldl (fun st i => randomizeStep cd pd i st) st).a
        = (pathRun pd l.length st.randavgpathl st.a st.k).2.1 ∧
    (l.foldl (fun st i => randomizeStep cd pd i st) st).k
        = (pathRun pd l.length st.randavgpathl st.a st.k).2.2 := by
  induction l generalizing st with
  | nil => exact ⟨rfl, rfl, rfl⟩
  | cons i l ih =>
    simp only [List.foldl_cons, List.length_cons]
    obtain ⟨h1, h2, h3⟩ := ih (randomizeStep cd pd i st)
    have e1 : (randomizeStep cd pd i st).randavgpathl
        = (pathAttempts pd 51 st.randavgpathl st.a st.k).1 := rfl
    have e2 : (randomizeStep cd pd i st).a
        = (pathAttempts pd 51 st.randavgpathl st.a st.k).2.1 := rfl
    have e3 : (randomizeStep cd pd i st).k
        = (pathAttempts pd 51 st.randavgpathl st.a st.k).2.2 := rfl
    rw [pathRun]
    exact ⟨by rw [h1, e1, e2, e3], by rw [h2, e1, e2, e3], by rw [h3, e1, e2, e3]⟩

/-- The clustering components of the fold of `randomizeRun` depend only on
the clustering draws: the accumulator collects exactly the successful
clustering values and the counter their number. -/
lemma foldl_randomizeStep_cluster (cd pd : ℕ → Option ℚ) (l : List ℕ)
    (st : RandState) :
    (l.foldl (fun st i => randomizeStep cd pd i st) st).randcluster
        = st.randcluster + ((l.filterMap cd).sum) ∧
    (l.foldl (fun st i => randomizeStep cd pd i st) st).c
        = st.c + (l.filterMap cd).length := by
  induction l generalizing st with
  | nil => simp
  | cons i l ih =>
    simp only [List.foldl_cons]
    obtain ⟨hA, hB⟩ := ih (randomizeStep cd pd i st)
    cases hcd : cd i with
    | none =>
      have e1 : (randomizeStep cd pd i st).randcluster = st.randcluster := by
        simp [randomizeStep, hcd]
      have e2 : (randomizeStep cd pd i st).c = st.c := by
        simp [randomizeStep, hcd]
      constructor
      · rw [hA, e1]
        simp [List.filterMap_cons, hcd]
      · rw [hB, e2]
        simp [List.filterMap_cons, hcd]
    | some v =>
      have e1 : (randomizeStep cd pd i st).randcluster = st.randcluster + v := by
        simp [randomizeStep, hcd]
      have e2 : (randomizeStep cd pd i st).c = st.c + 1 := by
        simp [randomizeStep, hcd]
      constructor
      · rw [hA, e1]
        simp only [List.filterMap_cons, hcd, List.sum_cons]
        ring
      · rw [hB, e2]
        simp only [List.filterMap_cons, hcd, List.length_cons]
        omega

/-- C2 (amended): in `randomize_graph`,
(1) the clustering statistic is accumulated independently of the path-length
draws and equals the mean of the successful clustering draws (`"NaN"` when
none succeeds); but for the path-length statistic,
(2) only when every sample finds a success within its 51 attempts does
`randavgpathl` equal the sum of the per-sample contributions divided by the
sample count, and
(3) as soon as one sample exhausts all its retry attempts, the accumulator
itself is overwritten with the `"NaN"` string: earlier successful
contributions are discarded, no later sample can contribute (the `+=` on the
string raises and is swallowed), and the final `randavgpathl` is `"NaN"`
even when the success counter is positive. -/
theorem randomize_graph_keeps_and_drops (cd pd : ℕ → Option ℚ) (R : ℕ) :
    ((randomize_graph cd pd R).2 =
      (if ((List.range R).filterMap cd).length = 0 then .nan
       else .num (((List.range R).filterMap cd).sum
         / (((List.range R).filterMap cd).length : ℚ)))) ∧
    ((∀ o ∈ pathOutcomes pd R 0, o.isSome = true) → R ≠ 0 →
      (randomize_graph cd pd R).1 =
        .num ((((pathOutcomes pd R 0).filterMap id).sum) / (R : ℚ))) ∧
    (none ∈ pathOutcomes pd R 0 → (randomize_graph cd pd R).1 = .nan) := by
  obtain ⟨h1, h2, _⟩ :=
    foldl_randomizeStep_path cd pd (List.range R) (⟨0, 0, .num 0, 0, 0⟩ : RandState)
  obtain ⟨h3, h4⟩ :=
    foldl_randomizeStep_cluster cd pd (List.range R) (⟨0, 0, .num 0, 0, 0⟩ : RandState)
  have hlen : (List.range R).length = R := List.length_range R
  refine ⟨?_, ?_, ?_⟩
  · rw [randomize_graph]
    simp only [randomizeRun] at *
    rw [h4, h3]
    simp only [Nat.zero_add, zero_add]
    split <;> simp_all
  · intro hall hR
    obtain ⟨k2, hk2⟩ := pathRun_success pd R 0 0 0 hall
    rw [randomize_graph]
    simp only [randomizeRun] at *
    rw [h1, hlen, hk2]
    simp only [zero_add]
    rw [h2, hlen, hk2]
    simp [hR, qdiv_eq]
  · intro hex
    have := pathRun_exhaust pd R 0 0 0 hex
    rw [randomize_graph]
    simp only [randomizeRun] at *
    rw [h1, hlen, this]

/-- C2 witness: with clustering succeeding only on the first draw (value 1)
and every path draw succeeding with value 2, two samples give
`randavgpathl = 2` and `randcluster = 1`. -/
theorem randomize_graph_keeps_witness :
    (randomize_graph (fun i => if i = 0 then some 1 else none)
      (fun _ => some 2) 2).1 = .num 2 ∧
    (randomize_graph (fun i => if i = 0 then some 1 else none)
      (fun _ => some 2) 2).2 = .num 1 := by
  obtain ⟨h1, h2, h3⟩ := randomize_graph_keeps_and_drops
    (fun i => if i = 0 then some 1 else none) (fun _ => some 2) 2
  constructor
  · have houts : pathOutcomes (fun _ => (some 2 : Option ℚ)) 2 0
        = [some 2, some 2] := by decide
    have hall : ∀ o ∈ pathOutcomes (fun _ => (some 2 : Option ℚ)) 2 0,
        o.isSome = true := by
      rw [houts]
      intro o ho
      rcases List.mem_cons.mp ho with rfl | ho2
      · rfl
      · rcases List.mem_cons.mp ho2 with rfl | ho3
        · rfl
        · simp at ho3
    rw [h2 hall (by decide), houts]
    have hfm : (List.filterMap id [some (2:ℚ), some 2]) = [2, 2] := rfl
    rw [hfm]
    norm_num [List.sum_cons]
  · rw [h1]
    have hfm : (List.range 2).filterMap
        (fun i => if i = 0 then some (1:ℚ) else none) = [1] := by decide
    rw [hfm]
    norm_num [List.sum_cons]

/-! ## Decimal representation of segment indices

`create_graph` labels the scene nodes of its intermediate bipartite graph
with `str(i)`, the decimal representation of the segment index, which is
`Nat.repr` in Lean.  The projection analysis needs that distinct indices get
distinct labels. -/

/-- The character list produced by `Nat.repr`, expressed through
`Nat.digits`. -/
def digitsRepr (n : ℕ) : List Char :=
  if n = 0 then ['0'] else ((Nat.digits 10 n).map Nat.digitChar).reverse

lemma toDigitsCore_eq_digitsRepr (fuel : ℕ) :
    ∀ (n : ℕ) (acc : List Char), n < fuel →
      Nat.toDigitsCore 10 fuel n acc = digitsRepr n ++ acc := by
  induction fuel with
  | zero => intro n acc h; omega
  | succ fuel ih =>
    intro n acc h
    rw [Nat.toDigitsCore]
    by_cases h0 : n / 10 = 0
    · rw [if_pos h0]
      rcases Nat.eq_zero_or_pos n with rfl | hn
      · rfl
      · have hd : Nat.digits 10 n = [n % 10] := by
          rw [Nat.digits_def' (by norm_num : 1 < 10) hn, h0]
          simp
        rw [digitsRepr, if_neg (by omega), hd]
        simp
    · rw [if_neg h0]
      have hn : 0 < n := by
        rcases Nat.eq_zero_or_pos n with rfl | hn
        · simp at h0
        · exact hn
      have hlt : n / 10 < fuel := by
        have := Nat.div_lt_self hn (by norm_num : 1 < 10)
        omega
      have hd : Nat.digits 10 n = n % 10 :: Nat.digits 10 (n / 10) := by
        rw [Nat.digits_def' (by norm_num : 1 < 10) hn]
      have hsplit : digitsRepr n = digitsRepr (n / 10) ++ [Nat.digitChar (n % 10)] := by
        rw [digitsRepr, digitsRepr, if_neg (by omega), if_neg h0, hd]
        simp
      rw [ih (n / 10) _ hlt, hsplit]
      simp

lemma toDigits_eq_digitsRepr (n : ℕ) : Nat.toDigits 10 n = digitsRepr n := by
  rw [Nat.toDigits, toDigitsCore_eq_digitsRepr (n+1) n [] (Nat.lt_succ_self n)]
  simp

lemma digitChar_inj_lt (a b : ℕ) (ha : a < 10) (hb : b < 10)
    (h : Nat.digitChar a = Nat.digitChar b) : a = b := by
  interval_cases a <;> interval_cases b <;> first | rfl | (exfalso; exact absurd h (by decide))

lemma map_digitChar_inj (l1 l2 : List ℕ) (h1 : ∀ x ∈ l1, x < 10)
    (h2 : ∀ x ∈ l2, x < 10)
    (h : l1.map Nat.digitChar = l2.map Nat.digitChar) : l1 = l2 := by
  induction l1 generalizing l2 with
  | nil => cases l2 <;> simp_all
  | cons a l1 ih =>
    cases l2 with
    | nil => simp_all
    | cons b l2 =>
      simp only [List.map_cons, List.cons.injEq] at h
      have ha := h1 a (List.mem_cons_self a l1)
      have hb := h2 b (List.mem_cons_self b l2)
      have hab : a = b := digitChar_inj_lt a b ha hb h.1
      cases hab
      rw [ih l2 (fun x hx => h1 x (List.mem_cons_of_mem a hx))
        (fun x hx => h2 x (List.mem_cons_of_mem a hx)) h.2]

lemma digitsRepr_inj {n m : ℕ} (h : digitsRepr n = digitsRepr m) : n = m := by
  have key : ∀ a : ℕ, a ≠ 0 → digitsRepr 0 ≠ digitsRepr a := by
    intro a ha
    rw [digitsRepr, digitsRepr, if_pos rfl, if_neg ha]
    intro hcontra
    have : ((Nat.digits 10 a).map Nat.digitChar).reverse.reverse = ['0'].reverse := by
      rw [← hcontra]
    simp only [List.reverse_reverse] at this
    have : (Nat.digits 10 a).map Nat.digitChar = ['0'] := by simpa using this
    have hda : Nat.digits 10 a = [0] := by
      have h0 : Nat.digitChar 0 = '0' := rfl
      refine map_digitChar_inj _ [0] (fun x hx => Nat.digits_lt_base (by norm_num) hx)
        (by intro x hx; simp at hx; omega) ?_
      rw [this]
      rfl
    have := Nat.ofDigits_digits 10 a
    rw [hda] at this
    simp [Nat.ofDigits] at this
    exact ha this.symm
  rcases Nat.eq_zero_or_pos n with rfl | hn
  · rcases Nat.eq_zero_or_pos m with rfl | hm
    · rfl
    · exact absurd h (key m (by omega))
  · rcases Nat.eq_zero_or_pos m with rfl | hm
    · exact absurd h.symm (key n (by omega))
    · rw [digitsRepr, digitsRepr, if_neg (by omega), if_neg (by omega)] at h
      have h2 : (Nat.digits 10 n).map Nat.digitChar = (Nat.digits 10 m).map Nat.digitChar := by
        have := congrArg List.reverse h
        simpa using this
      have h3 : Nat.digits 10 n = Nat.digits 10 m :=
        map_digitChar_inj _ _ (fun x hx => Nat.digits_lt_base (by norm_num) hx)
          (fun x hx => Nat.digits_lt_base (by norm_num) hx) h2
      have := congrArg (Nat.ofDigits 10) h3
      rwa [Nat.ofDigits_digits, Nat.ofDigits_digits] at this

lemma repr_injective : Function.Injective Nat.repr := by
  intro n m h
  have : Nat.toDigits 10 n = Nat.toDigits 10 m := by
    have := congrArg String.data h
    simpa [Nat.repr, List.asString] using this
  rw [toDigits_eq_digitsRepr, toDigits_eq_digitsRepr] at this
  exact digitsRepr_inj this

/-! ## Graph Builder: `create_graph`

`DramaAnalyzer.create_graph` (dramalyzer.py lines 278-313) builds an
intermediate `networkx` graph `B`: for each segment `i` it adds a node
labelled `str(i)` with attribute `bipartite=0` (unless a node with that
label already exists), then for each speaker a node with `bipartite=1`
(unless present) and an edge from the segment node to the speaker.  It then
takes `person_nodes` = all nodes minus those whose `bipartite` attribute is
`0`, and projects with `nx.bipartite.weighted_projected_graph(B,
person_nodes)`.

The embedding keeps the node list in insertion order with the attribute
assigned at first insertion, and the edge list as issued (duplicates are
harmless, adjacency is set-valued). -/

/-- The intermediate `networkx` graph `B` of `create_graph`: node labels with
their `bipartite` attribute (`true` = `bipartite=0`, a segment node) in
insertion order, and the issued edges. -/
structure BGraph where
  attrs : List (String × Bool)
  edges : List (String × String)
deriving DecidableEq

/-- Attribute of a node: `none` when the label is not a node of `B`. -/
def lookupAttr : List (String × Bool) → String → Option Bool
  | [], _ => none
  | p :: rest, x => if p.1 = x then some p.2 else lookupAttr rest x

/-- `B.add_node(x, bipartite=...)` guarded by `if not x in B.nodes()`. -/
def BGraph.addNode (B : BGraph) (x : String) (scene : Bool) : BGraph :=
  if (lookupAttr B.attrs x).isSome then B else ⟨B.attrs ++ [(x, scene)], B.edges⟩

/-- `B.add_edge(u, v)` (both endpoints are already nodes at every call
site). -/
def BGraph.addEdge (B : BGraph) (u v : String) : BGraph :=
  ⟨B.attrs, B.edges ++ [(u, v)]⟩

/-- The body of the `for i, speakers in enumerate(speakerset)` loop. -/
def BGraph.step (B : BGraph) (i : ℕ) (speakers : List String) : BGraph :=
  let B1 := B.addNode (Nat.repr i) true
  speakers.foldl (fun B t => (B.addNode t false).addEdge (Nat.repr i) t) B1

/-- The enumerated fold with a generic starting index (Python `enumerate`
starts at `0`; the generic form supports the induction). -/
def buildFrom (segments : List (List String)) (k : ℕ) (B : BGraph) : BGraph :=
  (List.enumFrom k segments).foldl (fun B p => B.step p.1 p.2) B

/-- The intermediate bipartite graph built by `create_graph`. -/
def create_graph_B (segments : List (List String)) : BGraph :=
  buildFrom segments 0 ⟨[], []⟩

/-- `networkx` adjacency in `B` (an edge in either orientation; a self-loop
makes a node its own neighbour, as in `networkx`). -/
def BGraph.nbrs (B : BGraph) (x : String) : Finset String :=
  (B.edges.filterMap fun e =>
    if e.1 = x then some e.2 else if e.2 = x then some e.1 else none).toFinset

/-- `scene_nodes = set(n for n,d in B.nodes(data=True) if d['bipartite']==0)`. -/
def BGraph.sceneNodes (B : BGraph) : Finset String :=
  (B.attrs.filterMap fun p => if p.2 then some p.1 else none).toFinset

/-- `person_nodes = set(B) - scene_nodes`. -/
def BGraph.personNodes (B : BGraph) : Finset String :=
  (B.attrs.map Prod.fst).toFinset \ B.sceneNodes

/-- The two-hop neighbourhood used by `weighted_projected_graph`:
`nbrs2 = set(n for nbr in unbrs for n in B[nbr]) - set([u])`. -/
def BGraph.nbrs2 (B : BGraph) (u : String) : Finset String :=
  ((B.nbrs u).biUnion B.nbrs) \ {u}

/-- The node set of the projected graph `G`: `G.add_nodes_from(nodes)` plus
every node reached by `G.add_edge(u, v)` for `v` in `nbrs2` of a designated
node (the projection does not restrict `nbrs2` to the designated side). -/
def projNodes (B : BGraph) : Finset String :=
  B.personNodes ∪ B.personNodes.biUnion B.nbrs2

/-- Adjacency of the projected graph: `G.add_edge(u, v, weight=...)` is
issued for `u` among the designated nodes and `v ∈ nbrs2(u)` (and the graph
is undirected). -/
def projAdj (B : BGraph) (u v : String) : Prop :=
  (u ∈ B.personNodes ∧ v ∈ B.nbrs2 u) ∨ (v ∈ B.personNodes ∧ u ∈ B.nbrs2 v)

instance (B : BGraph) (u v : String) : Decidable (projAdj B u v) := by
  unfold projAdj
  infer_instance

/-- Weight of a projected edge: `weight = len(unbrs & vnbrs)`, the number of
common neighbours in `B`; `0` encodes the absence of the edge. -/
def projWeight (B : BGraph) (u v : String) : ℕ :=
  if projAdj B u v then (B.nbrs u ∩ B.nbrs v).card else 0

/-! ### Characterisation of the bipartite graph built by `create_graph` -/

lemma lookupAttr_append (l1 l2 : List (String × Bool)) (x : String) :
    lookupAttr (l1 ++ l2) x =
      if (lookupAttr l1 x).isSome then lookupAttr l1 x else lookupAttr l2 x := by
  induction l1 with
  | nil => simp [lookupAttr]
  | cons p rest ih =>
    by_cases hp : p.1 = x
    · simp [lookupAttr, hp]
    · simp only [List.cons_append, lookupAttr, if_neg hp]
      exact ih

lemma lookupAttr_isSome_iff (l : List (String × Bool)) (x : String) :
    (lookupAttr l x).isSome = true ↔ x ∈ l.map Prod.fst := by
  induction l with
  | nil => simp [lookupAttr]
  | cons p rest ih =>
    by_cases hp : p.1 = x
    · simp [lookupAttr, hp]
    · simp only [lookupAttr, if_neg hp, List.map_cons, List.mem_cons, ih]
      constructor
      · intro h; exact Or.inr h
      · rintro (h | h)
        · exact absurd h.symm hp
        · exact h

lemma lookupAttr_addNode (B : BGraph) (y : String) (fl : Bool) (x : String) :
    lookupAttr (B.addNode y fl).attrs x =
      if (lookupAttr B.attrs x).isSome then lookupAttr B.attrs x
      else if x = y then some fl else none := by
  rw [BGraph.addNode]
  by_cases hy : (lookupAttr B.attrs y).isSome = true
  · rw [if_pos hy]
    by_cases hx : (lookupAttr B.attrs x).isSome = true
    · rw [if_pos hx]
    · rw [if_neg hx]
      have hxy : x ≠ y := by
        rintro rfl
        exact hx hy
      rw [if_neg hxy]
      exact Option.not_isSome_iff_eq_none.mp hx
  · rw [if_neg hy]
    show lookupAttr (B.attrs ++ [(y, fl)]) x = _
    rw [lookupAttr_append]
    by_cases hx : (lookupAttr B.attrs x).isSome = true
    · rw [if_pos hx, if_pos hx]
    · rw [if_neg hx, if_neg hx]
      by_cases hxy : x = y
      · subst hxy
        simp [lookupAttr]
      · have hyx : ¬ y = x := fun h => hxy h.symm
        rw [if_neg hxy]
        simp [lookupAttr, hyx]

@[simp] lemma addNode_edges (B : BGraph) (y : String) (fl : Bool) :
    (B.addNode y fl).edges = B.edges := by
  rw [BGraph.addNode]
  split <;> rfl

@[simp] lemma addEdge_attrs (B : BGraph) (u v : String) :
    (B.addEdge u v).attrs = B.attrs := rfl

@[simp] lemma addEdge_edges (B : BGraph) (u v : String) :
    (B.addEdge u v).edges = B.edges ++ [(u, v)] := rfl

lemma speakersFold_attrs (i : ℕ) (speakers : List String) (B : BGraph) (x : String) :
    lookupAttr ((speakers.foldl
        (fun B t => (B.addNode t false).addEdge (Nat.repr i) t) B).attrs) x =
      if (lookupAttr B.attrs x).isSome then lookupAttr B.attrs x
      else if x ∈ speakers then some false else none := by
  induction speakers generalizing B with
  | nil =>
    simp only [List.foldl_nil, List.not_mem_nil, if_false]
    split
    · rfl
    · next hx => exact Option.not_isSome_iff_eq_none.mp hx
  | cons t ts ih =>
    rw [List.foldl_cons, ih]
    simp only [addEdge_attrs, lookupAttr_addNode]
    by_cases hx : (lookupAttr B.attrs x).isSome = true
    · simp [hx]
    · by_cases hxt : x = t
      · subst hxt
        simp [hx]
      · by_cases hmem : x ∈ ts
        · simp [hx, hxt, hmem]
        · simp [hx, hxt, hmem]

lemma step_attrs (B : BGraph) (i : ℕ) (speakers : List String) (x : String) :
    lookupAttr (B.step i speakers).attrs x =
      if (lookupAttr B.attrs x).isSome then lookupAttr B.attrs x
      else if x = Nat.repr i then some true
      else if x ∈ speakers then some false else none := by
  rw [BGraph.step, speakersFold_attrs]
  simp only [lookupAttr_addNode]
  by_cases hx : (lookupAttr B.attrs x).isSome = true
  · simp [hx]
  · by_cases hxi : x = Nat.repr i
    · subst hxi
      simp [hx]
    · simp [hx, hxi]

lemma step_edges (B : BGraph) (i : ℕ) (speakers : List String) :
    (B.step i speakers).edges =
      B.edges ++ speakers.map (fun t => (Nat.repr i, t)) := by
  rw [BGraph.step]
  show (speakers.foldl (fun B t => (B.addNode t false).addEdge (Nat.repr i) t)
    (B.addNode (Nat.repr i) true)).edges = _
  have : ∀ (speakers : List String) (B0 : BGraph),
      (speakers.foldl (fun B t => (B.addNode t false).addEdge (Nat.repr i) t)
        B0).edges = B0.edges ++ speakers.map (fun t => (Nat.repr i, t)) := by
    intro speakers
    induction speakers with
    | nil => intro B0; simp
    | cons t ts ih =>
      intro B0
      rw [List.foldl_cons, ih]
      simp
  rw [this]
  simp

/-- The node attribute that the segment loop would assign to label `x`,
processing segments with indices `k, k+1, ...`: segment labels are claimed
before the segment's speakers. -/
def buildLookup : List (List String) → ℕ → String → Option Bool
  | [], _, _ => none
  | seg :: rest, k, x =>
    if x = Nat.repr k then some true
    else if x ∈ seg then some false
    else buildLookup rest (k+1) x

/-- The edges issued while processing segments with indices `k, k+1, ...`. -/
def buildEdges : List (List String) → ℕ → List (String × String)
  | [], _ => []
  | seg :: rest, k => seg.map (fun t => (Nat.repr k, t)) ++ buildEdges rest (k+1)

lemma buildFrom_attrs (segments : List (List String)) (k : ℕ) (B : BGraph)
    (x : String) :
    lookupAttr (buildFrom segments k B).attrs x =
      if (lookupAttr B.attrs x).isSome then lookupAttr B.attrs x
      else buildLookup segments k x := by
  induction segments generalizing k B with
  | nil =>
    simp only [buildFrom, List.enumFrom, List.foldl_nil, buildLookup]
    split
    · rfl
    · next hx => exact Option.not_isSome_iff_eq_none.mp hx
  | cons seg rest ih =>
    show lookupAttr (buildFrom rest (k+1) (B.step k seg)).attrs x = _
    rw [ih, step_attrs, buildLookup]
    by_cases hx : (lookupAttr B.attrs x).isSome = true
    · simp [hx]
    · by_cases hxi : x = Nat.repr k
      · subst hxi
        simp [hx]
      · by_cases hmem : x ∈ seg
        · simp [hx, hxi, hmem]
        · simp [hx, hxi, hmem]

lemma buildFrom_edges (segments : List (List String)) (k : ℕ) (B : BGraph) :
    (buildFrom segments k B).edges = B.edges ++ buildEdges segments k := by
  induction segments generalizing k B with
  | nil => simp [buildFrom, List.enumFrom, buildEdges]
  | cons seg rest ih =>
    show (buildFrom rest (k+1) (B.step k seg)).edges = _
    rw [ih, step_edges, buildEdges]
    simp

lemma create_graph_B_attrs (segments : List (List String)) (x : String) :
    lookupAttr (create_graph_B segments).attrs x = buildLookup segments 0 x := by
  rw [create_graph_B, buildFrom_attrs]
  rfl

lemma create_graph_B_edges (segments : List (List String)) :
    (create_graph_B segments).edges = buildEdges segments 0 := by
  rw [create_graph_B, buildFrom_edges]
  rfl

lemma mem_buildEdges (segments : List (List String)) (k : ℕ)
    (e : String × String) :
    e ∈ buildEdges segments k ↔
      ∃ j < segments.length, e.1 = Nat.repr (k + j) ∧
        e.2 ∈ segments.getD j [] := by
  induction segments generalizing k with
  | nil => simp [buildEdges]
  | cons seg rest ih =>
    rw [buildEdges]
    simp only [List.mem_append, List.mem_map, ih]
    constructor
    · rintro (⟨t, ht, rfl⟩ | ⟨j, hj, h1, h2⟩)
      · exact ⟨0, by simp, by simp, by simpa using ht⟩
      · exact ⟨j + 1, by simpa using hj, by simpa [Nat.add_assoc, Nat.add_comm 1 j] using h1,
          by simpa using h2⟩
    · rintro ⟨j, hj, h1, h2⟩
      cases j with
      | zero =>
        left
        refine ⟨e.2, by simpa using h2, ?_⟩
        rw [Nat.add_zero] at h1
        rw [← h1]
      | succ j =>
        right
        refine ⟨j, by simpa using hj, by simpa [Nat.add_assoc, Nat.add_comm 1 j] using h1,
          by simpa using h2⟩

lemma mem_nbrs (B : BGraph) (x y : String) :
    y ∈ B.nbrs x ↔ (x, y) ∈ B.edges ∨ (y, x) ∈ B.edges := by
  rw [BGraph.nbrs, List.mem_toFinset, List.mem_filterMap]
  constructor
  · rintro ⟨e, he, heq⟩
    by_cases h1 : e.1 = x
    · rw [if_pos h1] at heq
      left
      have : e = (x, y) := by
        rw [Prod.ext_iff]
        exact ⟨h1, Option.some.inj heq⟩
      rwa [← this]
    · rw [if_neg h1] at heq
      by_cases h2 : e.2 = x
      · rw [if_pos h2] at heq
        right
        have : e = (y, x) := by
          rw [Prod.ext_iff]
          exact ⟨Option.some.inj heq, h2⟩
        rwa [← this]
      · rw [if_neg h2] at heq
        exact absurd heq (by simp)
  · rintro (h | h)
    · exact ⟨(x, y), h, by simp⟩
    · refine ⟨(y, x), h, ?_⟩
      by_cases hxy : y = x
      · simp [hxy]
      · simp [hxy]

/-! ### Node sets of `B` and the projection, under the collision-free
precondition -/

lemma lookupAttr_eq_none_iff (l : List (String × Bool)) (x : String) :
    lookupAttr l x = none ↔ x ∉ l.map Prod.fst := by
  rw [← lookupAttr_isSome_iff]
  rcases h : lookupAttr l x with _ | b <;> simp [h]

lemma addNode_keys_nodup (B : BGraph) (y : String) (fl : Bool)
    (h : (B.attrs.map Prod.fst).Nodup) :
    ((B.addNode y fl).attrs.map Prod.fst).Nodup := by
  rw [BGraph.addNode]
  split
  · exact h
  · next hy =>
    have hnot : y ∉ B.attrs.map Prod.fst := by
      rw [← lookupAttr_isSome_iff]
      simpa using hy
    simp only [List.map_append, List.map_cons, List.map_nil]
    rw [List.nodup_append]
    refine ⟨h, List.nodup_singleton y, ?_⟩
    intro a ha hay
    rw [List.mem_singleton] at hay
    exact hnot (hay ▸ ha)

lemma step_keys_nodup (B : BGraph) (i : ℕ) (speakers : List String)
    (h : (B.attrs.map Prod.fst).Nodup) :
    ((B.step i speakers).attrs.map Prod.fst).Nodup := by
  rw [BGraph.step]
  have : ∀ (sp : List String) (B0 : BGraph), (B0.attrs.map Prod.fst).Nodup →
      ((sp.foldl (fun B t => (B.addNode t false).addEdge (Nat.repr i) t)
        B0).attrs.map Prod.fst).Nodup := by
    intro sp
    induction sp with
    | nil => intro B0 h0; exact h0
    | cons t ts ih =>
      intro B0 h0
      rw [List.foldl_cons]
      exact ih _ (by simpa using addNode_keys_nodup B0 t false h0)
  exact this speakers _ (addNode_keys_nodup B (Nat.repr i) true h)

lemma buildFrom_keys_nodup (segments : List (List String)) (k : ℕ) (B : BGraph)
    (h : (B.attrs.map Prod.fst).Nodup) :
    ((buildFrom segments k B).attrs.map Prod.fst).Nodup := by
  induction segments generalizing k B with
  | nil => exact h
  | cons seg rest ih =>
    show ((buildFrom rest (k+1) (B.step k seg)).attrs.map Prod.fst).Nodup
    exact ih (k+1) _ (step_keys_nodup B k seg h)

lemma create_graph_B_keys_nodup (segments : List (List String)) :
    ((create_graph_B segments).attrs.map Prod.fst).Nodup :=
  buildFrom_keys_nodup segments 0 ⟨[], []⟩ (by simp)

lemma mem_attrs_iff_lookup (l : List (String × Bool))
    (hnd : (l.map Prod.fst).Nodup) (x : String) (b : Bool) :
    (x, b) ∈ l ↔ lookupAttr l x = some b := by
  induction l with
  | nil => simp [lookupAttr]
  | cons p rest ih =>
    simp only [List.map_cons, List.nodup_cons] at hnd
    by_cases hp : p.1 = x
    · simp only [lookupAttr, if_pos hp, List.mem_cons]
      constructor
      · rintro (rfl | hmem)
        · rfl
        · exfalso
          apply hnd.1
          have hx : x ∈ List.map Prod.fst rest := List.mem_map_of_mem Prod.fst hmem
          rw [hp]
          exact hx
      · intro hb
        left
        rw [Prod.ext_iff]
        exact ⟨hp.symm, (Option.some.inj hb).symm⟩
    · simp only [lookupAttr, if_neg hp, List.mem_cons]
      rw [← ih hnd.2]
      constructor
      · rintro (rfl | hmem)
        · exact absurd rfl hp
        · exact hmem
      · exact fun hmem => Or.inr hmem

lemma mem_sceneNodes_iff (B : BGraph) (hnd : (B.attrs.map Prod.fst).Nodup)
    (x : String) :
    x ∈ B.sceneNodes ↔ lookupAttr B.attrs x = some true := by
  rw [BGraph.sceneNodes, List.mem_toFinset, List.mem_filterMap]
  constructor
  · rintro ⟨p, hp, heq⟩
    rcases p with ⟨y, b⟩
    by_cases hb : b
    · subst hb
      simp only [if_pos] at heq
      have : y = x := Option.some.inj heq
      subst this
      exact (mem_attrs_iff_lookup _ hnd _ _).mp hp
    · simp [hb] at heq
  · intro h
    exact ⟨(x, true), (mem_attrs_iff_lookup _ hnd _ _).mpr h, rfl⟩

lemma mem_personNodes_iff (B : BGraph) (hnd : (B.attrs.map Prod.fst).Nodup)
    (x : String) :
    x ∈ B.personNodes ↔ lookupAttr B.attrs x = some false := by
  rw [BGraph.personNodes, Finset.mem_sdiff, List.mem_toFinset,
    ← lookupAttr_isSome_iff, mem_sceneNodes_iff B hnd]
  rcases h : lookupAttr B.attrs x with _ | b
  · simp
  · cases b <;> simp

lemma buildLookup_of_char (segments : List (List String)) (k : ℕ) (c : String)
    (hc : c ∈ segments.flatten)
    (hcf : ∀ j < segments.length, Nat.repr (k + j) ∉ segments.flatten) :
    buildLookup segments k c = some false := by
  induction segments generalizing k with
  | nil => simp at hc
  | cons seg rest ih =>
    rw [buildLookup]
    have hck : c ≠ Nat.repr k := by
      intro h
      have := hcf 0 (by simp)
      rw [Nat.add_zero] at this
      exact this (h ▸ hc)
    rw [if_neg hck]
    by_cases hseg : c ∈ seg
    · rw [if_pos hseg]
    · rw [if_neg hseg]
      have hc2 : c ∈ rest.flatten := by
        rcases List.mem_append.mp (by rwa [List.flatten_cons] at hc) with h | h
        · exact absurd h hseg
        · exact h
      refine ih (k+1) hc2 ?_
      intro j hj hmem
      have harith : k + 1 + j = k + (j + 1) := by omega
      refine hcf (j+1) (by simpa using hj) ?_
      rw [← harith]
      rw [List.flatten_cons]
      exact List.mem_append.mpr (Or.inr hmem)

lemma mem_flatten_of_mem_getD (segments : List (List String)) (j : ℕ)
    (hj : j < segments.length) {x : String} (hx : x ∈ segments.getD j []) :
    x ∈ segments.flatten := by
  rw [List.getD_eq_getElem segments [] hj] at hx
  exact List.mem_flatten.mpr ⟨segments[j], List.getElem_mem hj, hx⟩

lemma buildLookup_false_imp (segments : List (List String)) (k : ℕ) (x : String)
    (h : buildLookup segments k x = some false) : x ∈ segments.flatten := by
  induction segments generalizing k with
  | nil => simp [buildLookup] at h
  | cons seg rest ih =>
    rw [buildLookup] at h
    by_cases h1 : x = Nat.repr k
    · rw [if_pos h1] at h
      simp at h
    · rw [if_neg h1] at h
      by_cases h2 : x ∈ seg
      · rw [List.flatten_cons]
        exact List.mem_append.mpr (Or.inl h2)
      · rw [if_neg h2] at h
        rw [List.flatten_cons]
        exact List.mem_append.mpr (Or.inr (ih (k+1) h))

lemma buildLookup_true_imp (segments : List (List String)) (k : ℕ) (x : String)
    (h : buildLookup segments k x = some true) :
    ∃ i, k ≤ i ∧ i < k + segments.length ∧ x = Nat.repr i := by
  induction segments generalizing k with
  | nil => simp [buildLookup] at h
  | cons seg rest ih =>
    rw [buildLookup] at h
    by_cases h1 : x = Nat.repr k
    · exact ⟨k, le_refl k, by simp, h1⟩
    · rw [if_neg h1] at h
      by_cases h2 : x ∈ seg
      · rw [if_pos h2] at h
        simp at h
      · rw [if_neg h2] at h
        obtain ⟨i, hi1, hi2, hi3⟩ := ih (k+1) h
        exact ⟨i, by omega, by simp only [List.length_cons]; omega, hi3⟩

lemma buildLookup_scene (segments : List (List String)) (k i : ℕ)
    (hk : k ≤ i) (hi : i < k + segments.length)
    (hfirst : ∀ j, j < i - k → Nat.repr i ∉ segments.getD j []) :
    buildLookup segments k (Nat.repr i) = some true := by
  induction segments generalizing k with
  | nil => simp at hi; omega
  | cons seg rest ih =>
    rw [buildLookup]
    by_cases hik : i = k
    · rw [if_pos (by rw [hik])]
    · have hlt : k < i := by omega
      have hne : Nat.repr i ≠ Nat.repr k := fun h => hik (repr_injective h)
      rw [if_neg hne]
      have h0 : Nat.repr i ∉ seg := by
        have := hfirst 0 (by omega)
        simpa using this
      rw [if_neg h0]
      refine ih (k+1) (by omega) (by simp at hi; omega) ?_
      intro j hj
      have := hfirst (j+1) (by omega)
      simpa using this

/-- The collision-free precondition: no segment-index label is also a
character identifier appearing in a segment. -/
def CollisionFree (segments : List (List String)) : Prop :=
  ∀ i < segments.length, Nat.repr i ∉ segments.flatten

lemma person_iff_appearing (segments : List (List String))
    (hcf : CollisionFree segments) (x : String) :
    x ∈ (create_graph_B segments).personNodes ↔ x ∈ segments.flatten := by
  rw [mem_personNodes_iff _ (create_graph_B_keys_nodup segments),
    create_graph_B_attrs]
  constructor
  · exact buildLookup_false_imp segments 0 x
  · intro hx
    refine buildLookup_of_char segments 0 x hx ?_
    intro j hj
    have := hcf j hj
    simpa using this

lemma scene_iff_label (segments : List (List String))
    (hcf : CollisionFree segments) (x : String) :
    x ∈ (create_graph_B segments).sceneNodes ↔
      ∃ i < segments.length, x = Nat.repr i := by
  rw [mem_sceneNodes_iff _ (create_graph_B_keys_nodup segments),
    create_graph_B_attrs]
  constructor
  · intro h
    obtain ⟨i, hi1, hi2, hi3⟩ := buildLookup_true_imp segments 0 x h
    exact ⟨i, by omega, hi3⟩
  · rintro ⟨i, hi, rfl⟩
    refine buildLookup_scene segments 0 i (by omega) (by omega) ?_
    intro j hj
    intro hmem
    exact hcf i hi (mem_flatten_of_mem_getD segments j (by omega) hmem)

lemma mem_create_graph_edges (segments : List (List String))
    (e : String × String) :
    e ∈ (create_graph_B segments).edges ↔
      ∃ j < segments.length, e.1 = Nat.repr j ∧ e.2 ∈ segments.getD j [] := by
  rw [create_graph_B_edges, mem_buildEdges]
  constructor
  · rintro ⟨j, hj, h1, h2⟩
    exact ⟨j, hj, by simpa using h1, h2⟩
  · rintro ⟨j, hj, h1, h2⟩
    exact ⟨j, hj, by simpa using h1, h2⟩

lemma nbrs_of_char (segments : List (List String))
    (hcf : CollisionFree segments) (c : String) (hc : c ∈ segments.flatten)
    (y : String) :
    y ∈ (create_graph_B segments).nbrs c ↔
      ∃ j < segments.length, y = Nat.repr j ∧ c ∈ segments.getD j [] := by
  rw [mem_nbrs, mem_create_graph_edges, mem_create_graph_edges]
  constructor
  · rintro (⟨j, hj, h1, h2⟩ | ⟨j, hj, h1, h2⟩)
    · exfalso
      exact hcf j hj (h1 ▸ hc)
    · exact ⟨j, hj, h1, h2⟩
  · rintro ⟨j, hj, h1, h2⟩
    exact Or.inr ⟨j, hj, h1, h2⟩

lemma nbrs_of_scene (segments : List (List String))
    (hcf : CollisionFree segments) (i : ℕ) (hi : i < segments.length)
    (y : String) :
    y ∈ (create_graph_B segments).nbrs (Nat.repr i) ↔
      y ∈ segments.getD i [] := by
  rw [mem_nbrs, mem_create_graph_edges, mem_create_graph_edges]
  constructor
  · rintro (⟨j, hj, h1, h2⟩ | ⟨j, hj, h1, h2⟩)
    · have : i = j := repr_injective h1
      subst this
      exact h2
    · exfalso
      exact hcf i hi (mem_flatten_of_mem_getD segments j hj h2)
  · intro h
    exact Or.inl ⟨i, hi, rfl, h⟩

lemma nbrs2_of_char (segments : List (List String))
    (hcf : CollisionFree segments) (c : String) (hc : c ∈ segments.flatten)
    (y : String) :
    y ∈ (create_graph_B segments).nbrs2 c ↔
      y ≠ c ∧ ∃ j < segments.length,
        c ∈ segments.getD j [] ∧ y ∈ segments.getD j [] := by
  rw [BGraph.nbrs2, Finset.mem_sdiff, Finset.mem_biUnion, Finset.mem_singleton]
  constructor
  · rintro ⟨⟨w, hw, hyw⟩, hne⟩
    obtain ⟨j, hj, rfl, hcj⟩ := (nbrs_of_char segments hcf c hc w).mp hw
    rw [nbrs_of_scene segments hcf j hj] at hyw
    exact ⟨hne, j, hj, hcj, hyw⟩
  · rintro ⟨hne, j, hj, hcj, hyj⟩
    refine ⟨⟨Nat.repr j, ?_, ?_⟩, hne⟩
    · exact (nbrs_of_char segments hcf c hc _).mpr ⟨j, hj, rfl, hcj⟩
    · exact (nbrs_of_scene segments hcf j hj y).mpr hyj

lemma projNodes_eq_appearing (segments : List (List String))
    (hcf : CollisionFree segments) :
    projNodes (create_graph_B segments) = segments.flatten.toFinset := by
  ext x
  rw [projNodes, Finset.mem_union, Finset.mem_biUnion, List.mem_toFinset]
  constructor
  · rintro (h | ⟨c, hc, hx⟩)
    · exact (person_iff_appearing segments hcf x).mp h
    · have hcA : c ∈ segments.flatten :=
        (person_iff_appearing segments hcf c).mp hc
      obtain ⟨_, j, hj, _, hxj⟩ := (nbrs2_of_char segments hcf c hcA x).mp hx
      exact mem_flatten_of_mem_getD segments j hj hxj
  · intro h
    exact Or.inl ((person_iff_appearing segments hcf x).mpr h)

lemma projAdj_iff_cooccur (segments : List (List String))
    (hcf : CollisionFree segments) (u v : String) :
    projAdj (create_graph_B segments) u v ↔
      u ≠ v ∧ ∃ j < segments.length,
        u ∈ segments.getD j [] ∧ v ∈ segments.getD j [] := by
  constructor
  · rintro (⟨hu, hv⟩ | ⟨hv, hu⟩)
    · have huA := (person_iff_appearing segments hcf u).mp hu
      obtain ⟨hne, j, hj, h1, h2⟩ := (nbrs2_of_char segments hcf u huA v).mp hv
      exact ⟨fun h => hne h.symm, j, hj, h1, h2⟩
    · have hvA := (person_iff_appearing segments hcf v).mp hv
      obtain ⟨hne, j, hj, h1, h2⟩ := (nbrs2_of_char segments hcf v hvA u).mp hu
      exact ⟨hne, j, hj, h2, h1⟩
  · rintro ⟨hne, j, hj, h1, h2⟩
    have huA : u ∈ segments.flatten := mem_flatten_of_mem_getD segments j hj h1
    left
    refine ⟨(person_iff_appearing segments hcf u).mpr huA, ?_⟩
    exact (nbrs2_of_char segments hcf u huA v).mpr ⟨fun h => hne h.symm, j, hj, h1, h2⟩

lemma projAdj_irrefl (B : BGraph) (u : String) : ¬ projAdj B u u := by
  rintro (⟨_, h⟩ | ⟨_, h⟩) <;>
    exact absurd (Finset.mem_sdiff.mp h).2 (by simp)

lemma nbrs_char_as_image (segments : List (List String))
    (hcf : CollisionFree segments) (c : String) (hc : c ∈ segments.flatten) :
    (create_graph_B segments).nbrs c =
      ((Finset.range segments.length).filter
        fun j => c ∈ segments.getD j []).image Nat.repr := by
  ext y
  rw [nbrs_of_char segments hcf c hc, Finset.mem_image]
  constructor
  · rintro ⟨j, hj, rfl, hcj⟩
    exact ⟨j, Finset.mem_filter.mpr ⟨Finset.mem_range.mpr hj, hcj⟩, rfl⟩
  · rintro ⟨j, hj, rfl⟩
    obtain ⟨hj1, hj2⟩ := Finset.mem_filter.mp hj
    exact ⟨j, Finset.mem_range.mp hj1, rfl, hj2⟩

lemma projWeight_eq_count (segments : List (List String))
    (hcf : CollisionFree segments) (u v : String) (hne : u ≠ v) :
    projWeight (create_graph_B segments) u v =
      ((Finset.range segments.length).filter
        fun j => u ∈ segments.getD j [] ∧ v ∈ segments.getD j []).card := by
  rw [projWeight]
  by_cases hadj : projAdj (create_graph_B segments) u v
  · rw [if_pos hadj]
    obtain ⟨_, j0, hj0, hu0, hv0⟩ := (projAdj_iff_cooccur segments hcf u v).mp hadj
    have huA : u ∈ segments.flatten := mem_flatten_of_mem_getD segments j0 hj0 hu0
    have hvA : v ∈ segments.flatten := mem_flatten_of_mem_getD segments j0 hj0 hv0
    rw [nbrs_char_as_image segments hcf u huA, nbrs_char_as_image segments hcf v hvA,
      ← Finset.image_inter _ _ repr_injective,
      Finset.card_image_of_injective _ repr_injective]
    congr 1
    ext j
    simp only [Finset.mem_inter, Finset.mem_filter, Finset.mem_range]
    tauto
  · rw [if_neg hadj]
    symm
    rw [Finset.card_eq_zero, Finset.filter_eq_empty_iff]
    intro j hj
    intro hcon
    exact hadj ((projAdj_iff_cooccur segments hcf u v).mpr
      ⟨hne, j, Finset.mem_range.mp hj, hcon.1, hcon.2⟩)

lemma exists_getD_iff_exists_mem (segments : List (List String))
    (P : List String → Prop) :
    (∃ j < segments.length, P (segments.getD j [])) ↔
      ∃ seg ∈ segments, P seg := by
  constructor
  · rintro ⟨j, hj, hP⟩
    rw [List.getD_eq_getElem segments [] hj] at hP
    exact ⟨segments[j], List.getElem_mem hj, hP⟩
  · rintro ⟨seg, hseg, hP⟩
    obtain ⟨j, hj, rfl⟩ := List.getElem_of_mem hseg
    exact ⟨j, hj, by rwa [List.getD_eq_getElem segments [] hj]⟩

lemma filter_length_eq_card_range {α : Type} (l : List α) (p : α → Bool)
    (d : α) :
    (l.filter p).length =
      ((Finset.range l.length).filter fun j => p (l.getD j d) = true).card := by
  induction l with
  | nil => simp
  | cons a l ih =>
    have hsum : ((Finset.range (l.length + 1)).filter
        fun j => p ((a :: l).getD j d) = true).card
        = ((Finset.range l.length).filter
            fun j => p ((a :: l).getD (j+1) d) = true).card
          + (if p ((a :: l).getD 0 d) = true then 1 else 0) := by
      rw [Finset.card_filter, Finset.card_filter, Finset.sum_range_succ']
    simp only [List.length_cons]
    rw [hsum]
    simp only [List.getD_cons_succ, List.getD_cons_zero]
    rw [List.filter_cons]
    by_cases hp : p a = true
    · rw [if_pos hp, if_pos hp]
      simp [ih]
    · rw [if_neg hp, if_neg hp]
      simp [ih]

/-- C5 counterexample: the Graph Builder's node set is not the set of
appearing characters for every Segment Sequence.  In `[{1,B},{C}]` the
character id `"1"` collides with the label of segment 1; the projected graph
contains the node `"0"` — a segment label, not a character appearing in any
segment. -/
theorem create_graph_nodeset_counterexample :
    "0" ∈ projNodes (create_graph_B [["1","B"],["C"]]) ∧
    "0" ∉ ([["1","B"],["C"]] : List (List String)).flatten := by
  constructor
  · decide
  · decide

/-- C5 (amended): provided no character id equals the decimal string of a
segment index (`CollisionFree`), the projected Interaction Graph has node
set = characters appearing in at least one segment, an edge between `u` and
`v` iff they co-occur in some segment, no self-loops, and edge weight = the
exact count of segments containing both `u` and `v`. -/
theorem create_graph_projection (segments : List (List String))
    (hcf : CollisionFree segments) :
    projNodes (create_graph_B segments) = segments.flatten.toFinset ∧
    (∀ u v : String, projAdj (create_graph_B segments) u v ↔
      u ≠ v ∧ ∃ seg ∈ segments, u ∈ seg ∧ v ∈ seg) ∧
    (∀ u : String, ¬ projAdj (create_graph_B segments) u u) ∧
    (∀ u v : String, u ≠ v →
      projWeight (create_graph_B segments) u v =
        (segments.filter fun seg => decide (u ∈ seg) && decide (v ∈ seg)).length) := by
  refine ⟨projNodes_eq_appearing segments hcf, ?_, fun u => projAdj_irrefl _ u, ?_⟩
  · intro u v
    rw [projAdj_iff_cooccur segments hcf u v]
    constructor
    · rintro ⟨hne, hex⟩
      exact ⟨hne, (exists_getD_iff_exists_mem segments
        (fun seg => u ∈ seg ∧ v ∈ seg)).mp hex⟩
    · rintro ⟨hne, hex⟩
      exact ⟨hne, (exists_getD_iff_exists_mem segments
        (fun seg => u ∈ seg ∧ v ∈ seg)).mpr hex⟩
  · intro u v hne
    rw [projWeight_eq_count segments hcf u v hne,
      filter_length_eq_card_range segments _ []]
    refine congrArg Finset.card (Finset.filter_congr ?_)
    intro j hj
    simp

/-- C5 witness: on the spec's own example `[{A,B},{B,C},{A,C}]` the node set
is `{A,B,C}` and each edge has weight 1. -/
theorem create_graph_projection_witness :
    projNodes (create_graph_B [["A","B"],["B","C"],["A","C"]])
      = (["A","B","B","C","A","C"] : List String).toFinset ∧
    projWeight (create_graph_B [["A","B"],["B","C"],["A","C"]]) "A" "B" = 1 := by
  obtain ⟨h1, _, _, h4⟩ :=
    create_graph_projection [["A","B"],["B","C"],["A","C"]]
      (by unfold CollisionFree; decide)
  constructor
  · rw [h1]
    rfl
  · rw [h4 "A" "B" (by decide)]
    decide

/-- C10 counterexample: a character whose id equals a decimal segment-index
string is not always classified as a segment-side node.  In `[{1,X},{Y}]`
the character `"1"` (= `str(1)`, with `1 < N = 2`) appears in segment 0, so
its node is created with `bipartite=1` before segment 1 is processed: it
stays person-side and is a node of the projected graph. -/
theorem collision_not_scene_side :
    lookupAttr (create_graph_B [["1","X"],["Y"]]).attrs "1" = some false ∧
    "1" ∈ projNodes (create_graph_B [["1","X"],["Y"]]) := by
  constructor
  · decide
  · decide

/-- C10 (amended): segment nodes are labelled with the decimal string of the
segment index; a character id equal to `str(i)` (`i < N`) collides with that
label, and when the character does not appear in any segment before index
`i`, the label is claimed by the segment node (`bipartite=0`), so the
character is excluded from the designated character side of the projection.
(When the character first appears before segment `i` it stays person-side,
and the node-set/edge-weight properties require the collision-free
precondition.) -/
theorem collision_first_appearance_scene_side (segments : List (List String))
    (i : ℕ) (hi : i < segments.length)
    (hfirst : ∀ j < i, Nat.repr i ∉ segments.getD j []) :
    lookupAttr (create_graph_B segments).attrs (Nat.repr i) = some true ∧
    Nat.repr i ∉ (create_graph_B segments).personNodes := by
  have h : lookupAttr (create_graph_B segments).attrs (Nat.repr i) = some true := by
    rw [create_graph_B_attrs]
    exact buildLookup_scene segments 0 i (Nat.zero_le i) (by omega)
      (fun j hj => hfirst j (by omega))
  refine ⟨h, ?_⟩
  rw [mem_personNodes_iff _ (create_graph_B_keys_nodup segments), h]
  simp

/-- C10 witness: in `[{0,B}]` the character `"0"` collides with the label of
segment 0 and never appears earlier, so it is scene-side and excluded from
the person side. -/
theorem collision_scene_side_witness :
    lookupAttr (create_graph_B [["0","B"]]).attrs "0" = some true ∧
    "0" ∉ (create_graph_B [["0","B"]]).personNodes := by
  have h := collision_first_appearance_scene_side [["0","B"]] 0 (by decide)
    (fun j hj => absurd hj (Nat.not_lt_zero j))
  exact ⟨h.1, h.2⟩

/-! ## Graph Metrics Engine: `analyze_graph`

The projected Interaction Graph, as consumed by the metric computations: a
duplicate-free vertex list (the iteration order of a `networkx` node set is
unspecified; the embedding fixes the insertion order of the underlying
bipartite graph) with a Boolean adjacency (symmetric and irreflexive for
every graph produced by `create_graph`). -/

structure FinGraph where
  verts : List String
  adj : String → String → Bool

/-- The node list of the projected graph, in insertion order of `B` (every
projected node is a node of `B`). -/
def nodesListOf (B : BGraph) : List String :=
  (B.attrs.map Prod.fst).filter fun x => decide (x ∈ projNodes B)

/-- The Interaction Graph `self.G` produced by `create_graph`. -/
def graphOf (segments : List (List String)) : FinGraph :=
  ⟨nodesListOf (create_graph_B segments),
   fun u v => decide (projAdj (create_graph_B segments) u v)⟩

/-- `networkx` degree: the number of neighbours. -/
def degree (G : FinGraph) (v : String) : ℕ :=
  (G.verts.filter fun w => G.adj v w).length

/-- Number of edges of `G` (each unordered pair counted once; the adjacency
of a projected graph is symmetric and irreflexive). -/
def edgeCount (G : FinGraph) : ℕ :=
  ((G.verts.flatMap fun u => G.verts.map fun v => (u, v)).filter
    fun p => G.adj p.1 p.2).length / 2

/-- One breadth-first expansion step. -/
def expandOnce (G : FinGraph) (S : Finset String) : Finset String :=
  S ∪ S.biUnion fun v => (G.verts.filter fun w => G.adj v w).toFinset

/-- Nodes within distance `k` of `v`. -/
def ball (G : FinGraph) (v : String) (k : ℕ) : Finset String :=
  (expandOnce G)^[k] {v}

/-- All nodes reachable from `v` (distances are at most `|V|`). -/
def reach (G : FinGraph) (v : String) : Finset String :=
  ball G v G.verts.length

/-- Shortest-path distance (`none` = unreachable), as the first radius whose
ball contains the target. -/
def dist (G : FinGraph) (u v : String) : Option ℕ :=
  (List.range (G.verts.length + 1)).find? fun k => decide (v ∈ ball G u k)

/-- `nx.is_connected` (callers guard the null graph, where `networkx`
raises). -/
def connectedB (G : FinGraph) : Bool :=
  match G.verts with
  | [] => true
  | v :: _ => G.verts.all fun w => decide (w ∈ reach G v)

/-- One representative per connected component, in vertex order. -/
def componentReps (G : FinGraph) : List String :=
  G.verts.foldl
    (fun acc v => if acc.any fun w => decide (v ∈ reach G w) then acc
      else acc ++ [v]) []

/-- `nx.number_connected_components` (`0` on the empty graph). -/
def componentCount (G : FinGraph) : ℕ := (componentReps G).length

/-- `max(nx.connected_component_subgraphs(G), key=len)`: a component of
maximal size (Python `max` keeps the first maximum in iteration order; the
iteration order over a Python set is unspecified, so any deterministic
choice is a faithful model). -/
def largestComponent (G : FinGraph) : Finset String :=
  ((componentReps G).map (reach G)).foldl
    (fun best c => if best.card < c.card then c else best) ∅

/-- The subgraph induced on a vertex set. -/
def induce (G : FinGraph) (S : Finset String) : FinGraph :=
  ⟨G.verts.filter fun v => decide (v ∈ S),
   fun u v => decide (u ∈ S) && decide (v ∈ S) && G.adj u v⟩

/-- Sum over all ordered vertex pairs of the shortest-path distance (used
only on connected graphs, where every distance is defined). -/
def distSum (G : FinGraph) : ℕ :=
  (G.verts.map fun u => (G.verts.map fun v => (dist G u v).getD 0).sum).sum

/-- Python `max` over a list of ints. -/
def listMaxNat : List ℕ → Option ℕ
  | [] => none
  | a :: l => some ((listMaxNat l).elim a (max a))

/-- `nx.density` (networkx 1.x): `0.0` when there are no edges or at most
one node, else `2m / (n(n-1))`; it raises no exception. -/
def nxDensity (G : FinGraph) : ℚ :=
  let n := G.verts.length
  let m := edgeCount G
  if m = 0 ∨ n ≤ 1 then 0
  else qdiv ((2 * m : ℕ) : ℚ) ((n * (n - 1) : ℕ) : ℚ)

/-- The `avgpathlength` entry of `analyze_graph` with its `try/except`
ladder: `NetworkXPointlessConcept` on the null graph (caught by the generic
handler), `ZeroDivisionError` on a single node (generic handler), the
largest-component fallback on a disconnected graph, whose own failure is
caught by the inner bare `except`. -/
def avgPathMetric (G : FinGraph) : Option ℚ :=
  if G.verts.length = 0 then none
  else if connectedB G then
    if G.verts.length = 1 then none
    else some (qdiv ((distSum G : ℕ) : ℚ)
      ((G.verts.length * (G.verts.length - 1) : ℕ) : ℚ))
  else
    let C := largestComponent G
    if C.card ≤ 1 then none
    else
      let H := induce G C
      some (qdiv ((distSum H : ℕ) : ℚ)
        ((C.card * (C.card - 1) : ℕ) : ℚ))

/-- `nx.clustering` of one node: `0` for degree `< 2`, else (twice the
number of triangles through `v`) `/ (d(d-1))`. -/
def localClust (G : FinGraph) (v : String) : ℚ :=
  let d := degree G v
  if d < 2 then 0
  else
    let nb := G.verts.filter fun w => G.adj v w
    let t : ℕ := ((nb.flatMap fun a => nb.map fun b => (a, b)).filter
      fun p => G.adj p.1 p.2).length
    qdiv ((t : ℕ) : ℚ) ((d * (d - 1) : ℕ) : ℚ)

/-- `nx.average_clustering`: the mean of the local coefficients, raising
`ZeroDivisionError` (caught by the caller) on the null graph. -/
def avgClustering (G : FinGraph) : Option ℚ :=
  if G.verts.length = 0 then none
  else some (qdiv (qsum (G.verts.map (localClust G)))
    ((G.verts.length : ℕ) : ℚ))

/-- The record built by `DramaAnalyzer.analyze_graph` (dramalyzer.py lines
315-375): `none` models the `"NaN"` sentinel stored by the corresponding
`except` handler. -/
structure GraphMetrics where
  charcount : ℕ
  edgecount : ℕ
  maxdegree : Option ℚ
  avgdegree : Option ℚ
  density : Option ℚ
  avgpathlength : Option ℚ
  clustering_coefficient : Option ℚ
  connected_components : ℕ
deriving DecidableEq

/-- `DramaAnalyzer.analyze_graph`: each metric is computed inside its own
`try/except`; a failure stores `"NaN"` in that field only. -/
def analyze_graph (G : FinGraph) : GraphMetrics where
  charcount := G.verts.length
  edgecount := edgeCount G
  maxdegree :=
    match listMaxNat (G.verts.map (degree G)) with
    | none => none
    | some m => some ((m : ℕ) : ℚ)
  avgdegree :=
    if G.verts.length = 0 then none
    else some (qdiv (((G.verts.map (degree G)).sum : ℕ) : ℚ)
      ((G.verts.length : ℕ) : ℚ))
  density := some (nxDensity G)
  avgpathlength := avgPathMetric G
  clustering_coefficient := avgClustering G
  connected_components := componentCount G

lemma listMaxNat_eq_none_iff (l : List ℕ) : listMaxNat l = none ↔ l = [] := by
  cases l <;> simp [listMaxNat]

/-- C8: in `analyze_graph` each failing metric is reported as the `NaN`
sentinel in its own field only and never blocks the other fields: for the
zero-node graph (a play with no segments), `maxdegree`, `avgdegree`,
`avgpathlength` and `clustering_coefficient` are the sentinel while
`charcount`, `edgecount` and `connected_components` are still returned as
`0`, `0`, `0` (and `density` as `0`); and for every graph, `maxdegree`,
`avgdegree` and `clustering_coefficient` fail exactly on the empty node set
while `charcount`, `edgecount` and `connected_components` are always
computed. -/
theorem analyze_graph_isolates_failures :
    analyze_graph (graphOf []) =
      ⟨0, 0, none, none, some 0, none, none, 0⟩ ∧
    ∀ G : FinGraph,
      ((analyze_graph G).maxdegree = none ↔ G.verts = []) ∧
      ((analyze_graph G).avgdegree = none ↔ G.verts = []) ∧
      ((analyze_graph G).clustering_coefficient = none ↔ G.verts = []) ∧
      (analyze_graph G).charcount = G.verts.length ∧
      (analyze_graph G).edgecount = edgeCount G ∧
      (analyze_graph G).connected_components = componentCount G := by
  constructor
  · decide
  · intro G
    refine ⟨?_, ?_, ?_, rfl, rfl, rfl⟩
    · show (match listMaxNat (G.verts.map (degree G)) with
        | none => none
        | some m => some ((m : ℕ) : ℚ)) = none ↔ _
      rcases hmax : listMaxNat (G.verts.map (degree G)) with _ | m
      · have hv : G.verts = [] := by
          rw [listMaxNat_eq_none_iff, List.map_eq_nil_iff] at hmax
          exact hmax
        simp [hmax, hv]
      · have hv : G.verts ≠ [] := by
          intro hcon
          rw [hcon] at hmax
          simp [listMaxNat] at hmax
        simp [hmax, hv]
    · show (if G.verts.length = 0 then none else _) = none ↔ _
      split
      · next h => simp [List.length_eq_zero.mp h]
      · next h =>
        have hne : G.verts ≠ [] := fun hcon => h (by rw [hcon]; rfl)
        simp [hne]
    · show avgClustering G = none ↔ _
      rw [avgClustering]
      split
      · next h => simp [List.length_eq_zero.mp h]
      · next h =>
        have hne : G.verts ≠ [] := fun hcon => h (by rw [hcon]; rfl)
        simp [hne]

/-! ## Centrality Engine: per-character metrics

`analyze_characters` fills the centralities table from
`nx.betweenness_centrality`, `nx.degree` and `nx.closeness_centrality`.
The library functions are embedded by their defining formulas (networkx 1.x,
default parameters: closeness scaled by the reachable fraction, betweenness
normalized by `1/((n-1)(n-2))` for `n > 2`). -/

/-- `nx.closeness_centrality` with the default `normalized=True`: for `r`
reachable nodes at total distance `tot`, the value is
`((r-1)/tot) * ((r-1)/(n-1))`, and `0` when `tot = 0` or `n ≤ 1`. -/
def closeness_centrality (G : FinGraph) (u : String) : ℚ :=
  let r := (reach G u).card
  let tot : ℕ := ∑ t in reach G u, (dist G u t).getD 0
  if 0 < tot ∧ 1 < G.verts.length then
    qmul (qdiv ((r - 1 : ℕ) : ℚ) ((tot : ℕ) : ℚ))
      (qdiv ((r - 1 : ℕ) : ℚ) ((G.verts.length - 1 : ℕ) : ℚ))
  else 0

/-- Number of walks of length exactly `k` from `s` to `t`; for
`k = dist s t` this is the number of shortest paths. -/
def walks (G : FinGraph) : ℕ → String → String → ℕ
  | 0, s, t => if s = t then 1 else 0
  | k+1, s, t => ((G.verts.filter fun w => G.adj w t).map fun w => walks G k s w).sum

/-- Number of shortest paths from `s` to `t` (`0` when unreachable). -/
def sigma (G : FinGraph) (s t : String) : ℕ :=
  match dist G s t with
  | none => 0
  | some d => walks G d s t

/-- Number of shortest `s`-`t` paths passing through `v`. -/
def sigmaThrough (G : FinGraph) (s v t : String) : ℕ :=
  match dist G s v, dist G v t, dist G s t with
  | some d1, some d2, some d =>
    if d1 + d2 = d then sigma G s v * sigma G v t else 0
  | _, _, _ => 0

/-- `nx.betweenness_centrality` with the default `normalized=True`
(networkx sums the pair dependencies over ordered pairs and rescales by
`1/((n-1)(n-2))` when `n > 2`, not at all for `n ≤ 2`). -/
def betweenness_centrality (G : FinGraph) (v : String) : ℚ :=
  let n := G.verts.length
  let pairSum : ℚ := qsum (G.verts.map fun s =>
    qsum (G.verts.map fun t =>
      if s ≠ t ∧ s ≠ v ∧ t ≠ v ∧ sigma G s t ≠ 0
      then qdiv ((sigmaThrough G s v t : ℕ) : ℚ) ((sigma G s t : ℕ) : ℚ)
      else 0))
  if 2 < n then qmul pairSum (qdiv 1 (((n - 1) * (n - 2) : ℕ) : ℚ))
  else pairSum

/-! ## The centralities table (`pandas.DataFrame`) and the Rank Aggregator -/

/-- The `self.centralities` DataFrame: an ordered row index (character ids),
an ordered column list, and the cell values.  Cells are only ever read from
columns that were previously assigned wholesale (`df[col] = ...`), so a
total value function with junk default `0` is observationally faithful. -/
structure Table where
  rows : List String
  cols : List String
  val : String → String → ℚ

/-- `df[c] = ...` (whole-column assignment): registers the column and sets
the cell of every indexed row. -/
def Table.setCol (t : Table) (c : String) (f : String → ℚ) : Table :=
  ⟨t.rows,
   if c ∈ t.cols then t.cols else t.cols ++ [c],
   fun r c2 => if c2 = c ∧ r ∈ t.rows then f r else t.val r c2⟩

/-- `df.loc[r, c] = q`: sets one cell, enlarging the index when the row
label is new (pandas loc-assignment semantics). -/
def Table.locSet (t : Table) (r : String) (c : String) (q : ℚ) : Table :=
  ⟨if r ∈ t.rows then t.rows else t.rows ++ [r],
   if c ∈ t.cols then t.cols else t.cols ++ [c],
   fun r2 c2 => if r2 = r ∧ c2 = c then q else t.val r2 c2⟩

/-- A column as the list of its values in row order. -/
def Table.column (t : Table) (c : String) : List ℚ :=
  t.rows.map fun r => t.val r c

/-- `self.centralities = pd.DataFrame(index=[p for p in self.personae])`
(dramalyzer.py lines 118-119): an index-only frame over the character
universe. -/
def initTable (personae : List String) : Table := ⟨personae, [], fun _ _ => 0⟩

/-- `DramaAnalyzer.analyze_characters` (dramalyzer.py lines 377-395):
initialise the three metric columns to `0`, then `loc`-assign each graph
node's betweenness, degree and closeness. -/
def analyze_characters (G : FinGraph) (t : Table) : Table :=
  let t1 := ((t.setCol "betweenness" fun _ => 0).setCol "degree"
    fun _ => 0).setCol "closeness" fun _ => 0
  let t2 := G.verts.foldl
    (fun t ch => t.locSet ch "betweenness" (betweenness_centrality G ch)) t1
  let t3 := G.verts.foldl
    (fun t ch => t.locSet ch "degree" ((degree G ch : ℕ) : ℚ)) t2
  G.verts.foldl
    (fun t ch => t.locSet ch "closeness" (closeness_centrality G ch)) t3

/-- `DramaAnalyzer.get_character_frequencies` (dramalyzer.py lines
171-175): a zero column, then one `loc`-assignment per character of the
`Counter` over the concatenated segments (key order does not affect the
result; the embedding uses last-occurrence order). -/
def get_character_frequencies (segments : List (List String)) (t : Table) :
    Table :=
  let t1 := t.setCol "frequency" fun _ => 0
  segments.flatten.dedup.foldl
    (fun t ch => t.locSet ch "frequency" ((segments.flatten.count ch : ℕ) : ℚ))
    t1

/-- `pandas.Series.rank(method='dense', ascending=False)` of value `x`
within a column: one plus the number of distinct column values exceeding
`x`. -/
def denseRank (values : List ℚ) (x : ℚ) : ℚ :=
  (((values.filter fun v => x < v).dedup.length + 1 : ℕ) : ℚ)

/-- `DramaAnalyzer.get_character_ranks` (dramalyzer.py lines 190-194). -/
def get_character_ranks (t : Table) : Table :=
  (["degree", "closeness", "betweenness", "frequency"]).foldl
    (fun t m => t.setCol (m ++ "_rank")
      fun r => denseRank (t.column m) (t.val r m)) t

/-- `DramaAnalyzer.get_centrality_ranks` (dramalyzer.py lines 196-201). -/
def get_centrality_ranks (t : Table) : Table :=
  t.setCol "avg_centrality_rank" fun r =>
    qdiv (qadd (qadd (t.val r "degree_rank") (t.val r "closeness_rank"))
      (t.val r "betweenness_rank")) 3

/-- `DramaAnalyzer.get_central_characters` (dramalyzer.py lines 203-207). -/
def get_central_characters (t : Table) : Table :=
  t.setCol "composite_centrality" fun r =>
    qdiv (qadd (t.val r "frequency_rank") (t.val r "avg_centrality_rank")) 2

/-- The centralities table as it stands when `get_central_character` and
`get_top_ranked_chars` run (the `__init__` sequence of `DramaAnalyzer`). -/
def buildTable (personae : List String) (segments : List (List String)) :
    Table :=
  get_central_characters (get_centrality_ranks (get_character_ranks
    (get_character_frequencies segments
      (analyze_characters (graphOf segments) (initTable personae)))))

/-- Python `str.endswith` (`String.endsWith` itself does not reduce in the
kernel; this computes on the character lists). -/
def endsWithR (s post : String) : Bool := post.data.isSuffixOf s.data

/-- `DramaAnalyzer.get_central_character` (dramalyzer.py lines 159-169):
average every column whose name ends in `"rank"`, take the minimum
(`min` raises `ValueError` on an empty index, modelled as `none`), return
the single minimiser or `"SEVERAL"`. -/
def get_central_character (t : Table) : Option String :=
  let ranks := t.cols.filter fun c => endsWithR c "rank"
  let avg := fun r => qdiv (qsum (ranks.map (t.val r))) ((ranks.length : ℕ) : ℚ)
  match listMin (t.rows.map avg) with
  | none => none
  | some m =>
    match t.rows.filter fun r => avg r = m with
    | [c] => some c
    | _ => some "SEVERAL"

/-- `DramaAnalyzer.get_top_ranked_chars` (dramalyzer.py lines 177-188).
Note the body: `cent_max = self.centralities[metric].max()` but
`top_char = self.centralities[self.centralities['closeness'] == cent_max]`
— the filter always compares the `closeness` column against the maximum of
the metric being reported.  (`Series.max()` of an empty column is `NaN`,
which compares equal to nothing.) -/
def get_top_ranked_chars (t : Table) : Option (List (String × String)) :=
  let entries := (["degree", "closeness", "betweenness", "frequency"]).map
    fun metric =>
      let topChar := match listMax (t.column metric) with
        | none => ([] : List String)
        | some mx => t.rows.filter fun r => t.val r "closeness" = mx
      (metric, match topChar with | [c] => c | _ => "SEVERAL")
  match get_central_character t with
  | none => none
  | some c => some (entries ++ [("central", c)])

/-- C1: `get_top_ranked_chars` evaluated at the failing input.  For the play
with universe `{A, B}` and segments `[{A,B}, {A,B}, {A}]` the frequency
column is `[3, 2]` — `A` is the unique character attaining the frequency
maximum `3` — yet the function reports `SEVERAL` for `frequency`, because it
filters the `closeness` column (whose values are `1, 1`) by the frequency
maximum.  This contradicts the claim (the spec itself flags the observed
always-`closeness` comparison as a defect, spec.md §9). -/
theorem top_ranked_chars_uses_closeness_column :
    (buildTable ["A","B"] [["A","B"],["A","B"],["A"]]).column "frequency"
      = [3, 2] ∧
    (buildTable ["A","B"] [["A","B"],["A","B"],["A"]]).rows.filter
      (fun r => (buildTable ["A","B"] [["A","B"],["A","B"],["A"]]).val r
        "frequency" = 3) = ["A"] ∧
    get_top_ranked_chars (buildTable ["A","B"] [["A","B"],["A","B"],["A"]]) =
      some [("degree", "SEVERAL"), ("closeness", "SEVERAL"),
        ("betweenness", "SEVERAL"), ("frequency", "SEVERAL"),
        ("central", "A")] := by
  refine ⟨by decide, by decide, by decide⟩

/-! ### Structure of the centralities table -/

lemma setCol_rows (t : Table) (c : String) (f : String → ℚ) :
    (t.setCol c f).rows = t.rows := rfl

lemma locSet_rows_mem (t : Table) (r c : String) (q : ℚ) (hr : r ∈ t.rows) :
    (t.locSet r c q).rows = t.rows := by
  simp [Table.locSet, hr]

lemma foldl_locSet_rows (l : List String) (c : String) (f : String → ℚ) :
    ∀ t : Table, (∀ ch ∈ l, ch ∈ t.rows) →
      (l.foldl (fun t ch => t.locSet ch c (f ch)) t).rows = t.rows := by
  induction l with
  | nil => intro t _; rfl
  | cons ch l ih =>
    intro t hmem
    rw [List.foldl_cons]
    have hch : ch ∈ t.rows := hmem ch (List.mem_cons_self ch l)
    have hrows : (t.locSet ch c (f ch)).rows = t.rows := locSet_rows_mem t ch c (f ch) hch
    rw [ih (t.locSet ch c (f ch))
      (fun ch2 h2 => by rw [hrows]; exact hmem ch2 (List.mem_cons_of_mem ch h2)), hrows]

lemma locSet_cols_mem (t : Table) (r c : String) (q : ℚ) (hc : c ∈ t.cols) :
    (t.locSet r c q).cols = t.cols := by
  simp [Table.locSet, hc]

lemma foldl_locSet_cols (l : List String) (c : String) (f : String → ℚ) :
    ∀ t : Table, c ∈ t.cols →
      (l.foldl (fun t ch => t.locSet ch c (f ch)) t).cols = t.cols := by
  induction l with
  | nil => intro t _; rfl
  | cons ch l ih =>
    intro t hc
    rw [List.foldl_cons]
    have hcols : (t.locSet ch c (f ch)).cols = t.cols := locSet_cols_mem t ch c (f ch) hc
    rw [ih (t.locSet ch c (f ch)) (by rw [hcols]; exact hc), hcols]

lemma setCol_val_ne (t : Table) (c : String) (f : String → ℚ) (r c2 : String)
    (h : c2 ≠ c) : (t.setCol c f).val r c2 = t.val r c2 := by
  simp [Table.setCol, h]

lemma setCol_val_self (t : Table) (c : String) (f : String → ℚ) (r : String)
    (hr : r ∈ t.rows) : (t.setCol c f).val r c = f r := by
  simp [Table.setCol, hr]

lemma setCol_column_ne (t : Table) (c : String) (f : String → ℚ) (c2 : String)
    (h : c2 ≠ c) : (t.setCol c f).column c2 = t.column c2 := by
  simp [Table.column, Table.setCol, h]

/-- Every node of the Interaction Graph is an appearing character (under the
collision-free precondition). -/
lemma graphOf_verts_sub (segments : List (List String))
    (hcf : CollisionFree segments) :
    ∀ x ∈ (graphOf segments).verts, x ∈ segments.flatten := by
  intro x hx
  have hx2 : x ∈ projNodes (create_graph_B segments) := by
    have := List.mem_filter.mp hx
    exact of_decide_eq_true this.2
  rw [projNodes_eq_appearing segments hcf] at hx2
  exact List.mem_toFinset.mp hx2

/-- C3 counterexample: the Character Metrics Table is indexed by the whole
character universe, not by the Interaction Graph's node set.  For universe
`{A,B,C}` and segments `[{A,B}]` the table has a row `C` although `C` is
not a node of the graph. -/
theorem metrics_table_has_universe_rows :
    (buildTable ["A","B","C"] [["A","B"]]).rows = ["A","B","C"] ∧
    (graphOf [["A","B"]]).verts = ["A","B"] ∧
    "C" ∈ (buildTable ["A","B","C"] [["A","B"]]).rows ∧
    "C" ∉ (graphOf [["A","B"]]).verts := by
  refine ⟨by decide, by decide, by decide, by decide⟩

lemma analyze_characters_rows (G : FinGraph) (t : Table)
    (h : ∀ x ∈ G.verts, x ∈ t.rows) :
    (analyze_characters G t).rows = t.rows := by
  simp only [analyze_characters]
  set tA := ((t.setCol "betweenness" fun _ => 0).setCol "degree"
    fun _ => 0).setCol "closeness" fun _ => 0 with htA
  have hA : tA.rows = t.rows := rfl
  set tB := G.verts.foldl
    (fun t ch => t.locSet ch "betweenness" (betweenness_centrality G ch)) tA
    with htB
  have hB : tB.rows = t.rows := by
    rw [htB, foldl_locSet_rows G.verts "betweenness"
      (fun ch => betweenness_centrality G ch) tA (by rw [hA]; exact h), hA]
  set tC := G.verts.foldl
    (fun t ch => t.locSet ch "degree" ((degree G ch : ℕ) : ℚ)) tB with htC
  have hC : tC.rows = t.rows := by
    rw [htC, foldl_locSet_rows G.verts "degree"
      (fun ch => ((degree G ch : ℕ) : ℚ)) tB (by rw [hB]; exact h), hB]
  rw [foldl_locSet_rows G.verts "closeness"
    (fun ch => closeness_centrality G ch) tC (by rw [hC]; exact h), hC]

lemma ranks_stages_rows (t : Table) :
    (get_central_characters (get_centrality_ranks
      (get_character_ranks t))).rows = t.rows := rfl

lemma get_character_frequencies_rows (segments : List (List String))
    (t : Table) (h : ∀ c ∈ segments.flatten, c ∈ t.rows) :
    (get_character_frequencies segments t).rows = t.rows := by
  simp only [get_character_frequencies]
  rw [foldl_locSet_rows segments.flatten.dedup "frequency"
    (fun ch => ((segments.flatten.count ch : ℕ) : ℚ))
    (t.setCol "frequency" fun _ => 0)
    (fun ch hch => h ch (List.mem_dedup.mp hch))]
  rfl

/-- C3 (amended): provided the appearing characters lie in the universe and
no character id collides with a segment-index label, the table's index is
exactly the character universe (in order), and the Interaction Graph's
node set is a subset of it; universe entries that never appear in a segment
still get a row (with zero-initialised metric cells), so the index properly
contains the node set whenever such entries exist. -/
theorem metrics_table_rows_eq_universe (personae : List String)
    (segments : List (List String))
    (hsub : ∀ c ∈ segments.flatten, c ∈ personae)
    (hcf : CollisionFree segments) :
    (buildTable personae segments).rows = personae ∧
    ∀ x ∈ (graphOf segments).verts, x ∈ personae := by
  have hverts : ∀ x ∈ (graphOf segments).verts, x ∈ personae :=
    fun x hx => hsub x (graphOf_verts_sub segments hcf x hx)
  refine ⟨?_, hverts⟩
  rw [buildTable, ranks_stages_rows]
  have hA : (analyze_characters (graphOf segments) (initTable personae)).rows
      = personae :=
    analyze_characters_rows (graphOf segments) (initTable personae) hverts
  rw [get_character_frequencies_rows segments _ (by rw [hA]; exact hsub), hA]

/-- C3 witness: the amended row characterisation at a concrete play. -/
theorem metrics_table_rows_witness :
    (buildTable ["A","B","C"] [["A","B"]]).rows = ["A","B","C"] :=
  (metrics_table_rows_eq_universe ["A","B","C"] [["A","B"]]
    (by decide) (by unfold CollisionFree; decide)).1

/-! ### Column layout of the centralities table -/

lemma setCol_cols_not_mem (t : Table) (c : String) (f : String → ℚ)
    (h : c ∉ t.cols) : (t.setCol c f).cols = t.cols ++ [c] := by
  simp [Table.setCol, h]

lemma mem_setCol_cols_self (t : Table) (c : String) (f : String → ℚ) :
    c ∈ (t.setCol c f).cols := by
  by_cases h : c ∈ t.cols
  · simp [Table.setCol, h]
  · simp [Table.setCol, h]

lemma analyze_characters_cols (G : FinGraph) (p : List String) :
    (analyze_characters G (initTable p)).cols =
      ["betweenness", "degree", "closeness"] := by
  simp only [analyze_characters]
  set tA := (((initTable p).setCol "betweenness" fun _ => 0).setCol "degree"
    fun _ => 0).setCol "closeness" fun _ => 0 with htA
  have hA : tA.cols = ["betweenness", "degree", "closeness"] := rfl
  set tB := G.verts.foldl
    (fun t ch => t.locSet ch "betweenness" (betweenness_centrality G ch)) tA
    with htB
  have hB : tB.cols = ["betweenness", "degree", "closeness"] := by
    rw [htB, foldl_locSet_cols G.verts "betweenness"
      (fun ch => betweenness_centrality G ch) tA (by rw [hA]; decide), hA]
  set tC := G.verts.foldl
    (fun t ch => t.locSet ch "degree" ((degree G ch : ℕ) : ℚ)) tB with htC
  have hC : tC.cols = ["betweenness", "degree", "closeness"] := by
    rw [htC, foldl_locSet_cols G.verts "degree"
      (fun ch => ((degree G ch : ℕ) : ℚ)) tB (by rw [hB]; decide), hB]
  rw [foldl_locSet_cols G.verts "closeness"
    (fun ch => closeness_centrality G ch) tC (by rw [hC]; decide), hC]

lemma get_character_frequencies_cols (segments : List (List String))
    (t : Table) (h : "frequency" ∉ t.cols) :
    (get_character_frequencies segments t).cols = t.cols ++ ["frequency"] := by
  simp only [get_character_frequencies]
  rw [foldl_locSet_cols segments.flatten.dedup "frequency"
    (fun ch => ((segments.flatten.count ch : ℕ) : ℚ))
    (t.setCol "frequency" fun _ => 0)
    (mem_setCol_cols_self t "frequency" _)]
  exact setCol_cols_not_mem t "frequency" _ h

/-- The full column layout of the centralities table at analysis time. -/
lemma buildTable_cols (p : List String) (s : List (List String)) :
    (buildTable p s).cols =
      ["betweenness", "degree", "closeness", "frequency",
       "degree_rank", "closeness_rank", "betweenness_rank", "frequency_rank",
       "avg_centrality_rank", "composite_centrality"] := by
  have h4 : (get_character_frequencies s
      (analyze_characters (graphOf s) (initTable p))).cols =
      ["betweenness", "degree", "closeness", "frequency"] := by
    rw [get_character_frequencies_cols s _
      (by rw [analyze_characters_cols]; decide), analyze_characters_cols]
    rfl
  have h5 : (get_character_ranks (get_character_frequencies s
      (analyze_characters (graphOf s) (initTable p)))).cols =
      ["betweenness", "degree", "closeness", "frequency",
       "degree_rank", "closeness_rank", "betweenness_rank", "frequency_rank"] := by
    simp only [get_character_ranks, List.foldl_cons, List.foldl_nil]
    set T4 := get_character_frequencies s
      (analyze_characters (graphOf s) (initTable p)) with hT4
    set T5a := T4.setCol ("degree" ++ "_rank")
      (fun r => denseRank (T4.column "degree") (T4.val r "degree")) with hT5a
    have c5a : T5a.cols = ["betweenness", "degree", "closeness", "frequency",
        "degree_rank"] := by
      rw [hT5a, setCol_cols_not_mem _ _ _ (by rw [h4]; decide), h4]
      decide
    set T5b := T5a.setCol ("closeness" ++ "_rank")
      (fun r => denseRank (T5a.column "closeness") (T5a.val r "closeness"))
      with hT5b
    have c5b : T5b.cols = ["betweenness", "degree", "closeness", "frequency",
        "degree_rank", "closeness_rank"] := by
      rw [hT5b, setCol_cols_not_mem _ _ _ (by rw [c5a]; decide), c5a]
      decide
    set T5c := T5b.setCol ("betweenness" ++ "_rank")
      (fun r => denseRank (T5b.column "betweenness") (T5b.val r "betweenness"))
      with hT5c
    have c5c : T5c.cols = ["betweenness", "degree", "closeness", "frequency",
        "degree_rank", "closeness_rank", "betweenness_rank"] := by
      rw [hT5c, setCol_cols_not_mem _ _ _ (by rw [c5b]; decide), c5b]
      decide
    rw [setCol_cols_not_mem _ _ _ (by rw [c5c]; decide), c5c]
    decide
  have h6 : (get_centrality_ranks (get_character_ranks
      (get_character_frequencies s
        (analyze_characters (graphOf s) (initTable p))))).cols =
      ["betweenness", "degree", "closeness", "frequency",
       "degree_rank", "closeness_rank", "betweenness_rank", "frequency_rank",
       "avg_centrality_rank"] := by
    rw [get_centrality_ranks, setCol_cols_not_mem _ _ _ (by rw [h5]; decide),
      h5]
    rfl
  rw [buildTable, get_central_characters,
    setCol_cols_not_mem _ _ _ (by rw [h6]; decide), h6]
  rfl

/-- Modelled from the claim (C6): per character, the mean of the five
rank-valued columns (`degree_rank`, `closeness_rank`, `betweenness_rank`,
`frequency_rank`, `avg_centrality_rank`); take the minimum over all
characters; a unique minimiser is returned, a tie yields `SEVERAL`. -/
def claimCentral (t : Table) : Option String :=
  let meanFive := fun r =>
    (t.val r "degree_rank" + t.val r "closeness_rank" +
      t.val r "betweenness_rank" + t.val r "frequency_rank" +
      t.val r "avg_centrality_rank") / 5
  match listMin (t.rows.map meanFive) with
  | none => none
  | some m =>
    match t.rows.filter fun r => meanFive r = m with
    | [c] => some c
    | _ => some "SEVERAL"

lemma centralDecision_congr (rows : List String) (f g : String → ℚ)
    (h : ∀ r ∈ rows, f r = g r) :
    (match listMin (rows.map f) with
     | none => none
     | some m =>
       match rows.filter (fun r => f r = m) with
       | [c] => some c
       | _ => some "SEVERAL") =
    (match listMin (rows.map g) with
     | none => (none : Option String)
     | some m =>
       match rows.filter (fun r => g r = m) with
       | [c] => some c
       | _ => some "SEVERAL") := by
  have hmap : rows.map f = rows.map g := List.map_congr_left h
  rw [hmap]
  cases listMin (rows.map g) with
  | none => rfl
  | some m =>
    have hfil : (rows.filter fun r => f r = m) = rows.filter fun r => g r = m :=
      List.filter_congr (fun r hr => by simp [h r hr])
    simp only [hfil]

/-- C6: the central-character decision of `get_central_character` equals the
claim's formula — the minimum over all characters of the mean of the five
rank-valued columns, with the `SEVERAL` sentinel on ties — and
`avg_centrality_rank` is itself the mean of the three structural ranks. -/
theorem central_character_formula (p : List String)
    (s : List (List String)) :
    get_central_character (buildTable p s) = claimCentral (buildTable p s) ∧
    ∀ r ∈ (buildTable p s).rows,
      (buildTable p s).val r "avg_centrality_rank" =
        ((buildTable p s).val r "degree_rank" +
          (buildTable p s).val r "closeness_rank" +
          (buildTable p s).val r "betweenness_rank") / 3 := by
  constructor
  · have hranks : (buildTable p s).cols.filter (fun c => endsWithR c "rank") =
        ["degree_rank", "closeness_rank", "betweenness_rank", "frequency_rank",
         "avg_centrality_rank"] := by
      rw [buildTable_cols]
      rfl
    simp only [get_central_character, claimCentral]
    rw [hranks]
    refine centralDecision_congr _ _ _ ?_
    intro r hr
    simp only [List.map_cons, List.map_nil, qsum, List.foldr_cons,
      List.foldr_nil, qadd_eq, qdiv_eq, List.length_cons, List.length_nil]
    push_cast
    ring
  · intro r hr
    have hr5 : r ∈ (get_character_ranks (get_character_frequencies s
        (analyze_characters (graphOf s) (initTable p)))).rows := hr
    show ((get_centrality_ranks (get_character_ranks
      (get_character_frequencies s (analyze_characters (graphOf s)
        (initTable p))))).setCol "composite_centrality" _).val r
          "avg_centrality_rank" = _
    rw [setCol_val_ne _ _ _ _ _ (by decide)]
    rw [get_centrality_ranks, setCol_val_self _ _ _ _ hr5]
    have e1 : (buildTable p s).val r "degree_rank" =
        (get_character_ranks (get_character_frequencies s
          (analyze_characters (graphOf s) (initTable p)))).val r "degree_rank" := by
      show ((get_centrality_ranks _).setCol "composite_centrality" _).val r
        "degree_rank" = _
      rw [setCol_val_ne _ _ _ _ _ (by decide), get_centrality_ranks,
        setCol_val_ne _ _ _ _ _ (by decide)]
    have e2 : (buildTable p s).val r "closeness_rank" =
        (get_character_ranks (get_character_frequencies s
          (analyze_characters (graphOf s) (initTable p)))).val r "closeness_rank" := by
      show ((get_centrality_ranks _).setCol "composite_centrality" _).val r
        "closeness_rank" = _
      rw [setCol_val_ne _ _ _ _ _ (by decide), get_centrality_ranks,
        setCol_val_ne _ _ _ _ _ (by decide)]
    have e3 : (buildTable p s).val r "betweenness_rank" =
        (get_character_ranks (get_character_frequencies s
          (analyze_characters (graphOf s) (initTable p)))).val r "betweenness_rank" := by
      show ((get_centrality_ranks _).setCol "composite_centrality" _).val r
        "betweenness_rank" = _
      rw [setCol_val_ne _ _ _ _ _ (by decide), get_centrality_ranks,
        setCol_val_ne _ _ _ _ _ (by decide)]
    rw [e1, e2, e3]
    simp only [qadd_eq, qdiv_eq]

/-- C6 witness: applying the formula theorem at a concrete play: the claim's
formula yields `A`, matching the code's decision (evaluated by `decide`). -/
theorem central_character_formula_witness :
    claimCentral (buildTable ["A","B"] [["A","B"],["A","B"],["A"]]) = some "A" ∧
    (buildTable ["A","B"] [["A","B"],["A","B"],["A"]]).val "A"
      "avg_centrality_rank" = 1 := by
  obtain ⟨h1, h2⟩ := central_character_formula ["A","B"] [["A","B"],["A","B"],["A"]]
  constructor
  · rw [← h1]
    decide
  · rw [h2 "A" (by decide)]
    have e1 : (buildTable ["A","B"] [["A","B"],["A","B"],["A"]]).val "A"
        "degree_rank" = 1 := by decide
    have e2 : (buildTable ["A","B"] [["A","B"],["A","B"],["A"]]).val "A"
        "closeness_rank" = 1 := by decide
    have e3 : (buildTable ["A","B"] [["A","B"],["A","B"],["A"]]).val "A"
        "betweenness_rank" = 1 := by decide
    rw [e1, e2, e3]
    norm_num

/-! ### Dense-rank properties -/

/-- Natural-number form of `denseRank`: one plus the number of distinct
column values strictly greater than `x`. -/
def rkNat (vs : List ℚ) (x : ℚ) : ℕ :=
  (vs.filter fun v => x < v).dedup.length + 1

lemma denseRank_eq_rkNat (vs : List ℚ) (x : ℚ) :
    denseRank vs x = ((rkNat vs x : ℕ) : ℚ) := rfl

lemma rkNat_eq_card (vs : List ℚ) (x : ℚ) :
    rkNat vs x = (vs.toFinset.filter fun v => x < v).card + 1 := by
  rw [rkNat, ← List.card_toFinset, List.toFinset_filter]
  simp

lemma rkNat_max (vs : List ℚ) (x : ℚ) (h : ∀ v ∈ vs, v ≤ x) :
    rkNat vs x = 1 := by
  rw [rkNat]
  have hnil : (vs.filter fun v => x < v) = [] := by
    rw [List.filter_eq_nil_iff]
    intro v hv
    simp only [decide_eq_true_eq, not_lt]
    exact h v hv
  rw [hnil]
  rfl

lemma rkNat_lt_of_lt (vs : List ℚ) (x y : ℚ) (hx : x ∈ vs) (h : y < x) :
    rkNat vs x < rkNat vs y := by
  rw [rkNat_eq_card, rkNat_eq_card]
  have hsub : insert x (vs.toFinset.filter fun v => x < v) ⊆
      vs.toFinset.filter fun v => y < v := by
    intro v hv
    rcases Finset.mem_insert.mp hv with hvx | hvf
    · subst hvx
      exact Finset.mem_filter.mpr ⟨List.mem_toFinset.mpr hx, h⟩
    · obtain ⟨hvV, hvlt⟩ := Finset.mem_filter.mp hvf
      exact Finset.mem_filter.mpr ⟨hvV, h.trans hvlt⟩
  have hnm : x ∉ vs.toFinset.filter fun v => x < v := by
    intro hc
    exact absurd (Finset.mem_filter.mp hc).2 (lt_irrefl x)
  have hcard := Finset.card_le_card hsub
  rw [Finset.card_insert_of_not_mem hnm] at hcard
  omega

lemma rkNat_adjacent (vs : List ℚ) (x y : ℚ) (hx : x ∈ vs) (h : y < x)
    (hnb : ∀ v ∈ vs, ¬(y < v ∧ v < x)) :
    rkNat vs y = rkNat vs x + 1 := by
  rw [rkNat_eq_card, rkNat_eq_card]
  have hins : (vs.toFinset.filter fun v => y < v) =
      insert x (vs.toFinset.filter fun v => x < v) := by
    ext v
    constructor
    · intro hv
      obtain ⟨hvV, hvlt⟩ := Finset.mem_filter.mp hv
      rcases lt_trichotomy v x with hlt | heq | hgt
      · exact absurd ⟨hvlt, hlt⟩ (hnb v (List.mem_toFinset.mp hvV))
      · exact Finset.mem_insert.mpr (Or.inl heq)
      · exact Finset.mem_insert.mpr (Or.inr (Finset.mem_filter.mpr ⟨hvV, hgt⟩))
    · intro hv
      rcases Finset.mem_insert.mp hv with hvx | hvf
      · subst hvx
        exact Finset.mem_filter.mpr ⟨List.mem_toFinset.mpr hx, h⟩
      · obtain ⟨hvV, hvlt⟩ := Finset.mem_filter.mp hvf
        exact Finset.mem_filter.mpr ⟨hvV, h.trans hvlt⟩
  have hnm : x ∉ vs.toFinset.filter fun v => x < v := by
    intro hc
    exact absurd (Finset.mem_filter.mp hc).2 (lt_irrefl x)
  rw [hins, Finset.card_insert_of_not_mem hnm]

lemma rkNat_le (vs : List ℚ) (x : ℚ) (hx : x ∈ vs) :
    rkNat vs x ≤ vs.dedup.length := by
  rw [rkNat_eq_card, ← List.card_toFinset]
  have hss : (vs.toFinset.filter fun v => x < v) ⊂ vs.toFinset := by
    refine Finset.ssubset_iff_of_subset (Finset.filter_subset _ _) |>.mpr ?_
    refine ⟨x, List.mem_toFinset.mpr hx, ?_⟩
    intro hc
    exact absurd (Finset.mem_filter.mp hc).2 (lt_irrefl x)
  have := Finset.card_lt_card hss
  omega

lemma rkNat_surjective (vs : List ℚ) (k : ℕ) (h1 : 1 ≤ k)
    (h2 : k ≤ vs.dedup.length) : ∃ x ∈ vs, rkNat vs x = k := by
  have himg : vs.toFinset.image (rkNat vs) =
      Finset.Icc 1 vs.toFinset.card := by
    refine Finset.eq_of_subset_of_card_le ?_ ?_
    · intro n hn
      obtain ⟨x, hx, hxn⟩ := Finset.mem_image.mp hn
      subst hxn
      refine Finset.mem_Icc.mpr ⟨?_, ?_⟩
      · rw [rkNat]
        omega
      · rw [List.card_toFinset]
        exact rkNat_le vs x (List.mem_toFinset.mp hx)
    · have hinj : Set.InjOn (rkNat vs) vs.toFinset := by
        intro a ha b hb hab
        by_contra hne
        rcases lt_or_gt_of_ne hne with hlt | hgt
        · have := rkNat_lt_of_lt vs b a (List.mem_toFinset.mp hb) hlt
          omega
        · have := rkNat_lt_of_lt vs a b (List.mem_toFinset.mp ha) hgt
          omega
      rw [Finset.card_image_of_injOn hinj, Nat.card_Icc]
      omega
  have hk : k ∈ Finset.Icc 1 vs.toFinset.card := by
    rw [← List.card_toFinset] at h2
    exact Finset.mem_Icc.mpr ⟨h1, h2⟩
  rw [← himg] at hk
  obtain ⟨x, hx, hxk⟩ := Finset.mem_image.mp hk
  exact ⟨x, List.mem_toFinset.mp hx, hxk⟩

lemma get_character_ranks_val (t : Table) (m : String)
    (hm : m ∈ ["degree", "closeness", "betweenness", "frequency"])
    (r : String) (hr : r ∈ t.rows) :
    (get_character_ranks t).val r (m ++ "_rank") =
      denseRank (t.column m) (t.val r m) := by
  fin_cases hm
  · show (get_character_ranks t).val r ("degree" ++ "_rank") = _
    simp only [get_character_ranks, List.foldl_cons, List.foldl_nil]
    rw [setCol_val_ne _ _ _ _ _ (by decide), setCol_val_ne _ _ _ _ _ (by decide),
      setCol_val_ne _ _ _ _ _ (by decide), setCol_val_self _ _ _ _ hr]
  · show (get_character_ranks t).val r ("closeness" ++ "_rank") = _
    simp only [get_character_ranks, List.foldl_cons, List.foldl_nil]
    rw [setCol_val_ne _ _ _ _ _ (by decide), setCol_val_ne _ _ _ _ _ (by decide),
      setCol_val_self _ _ _ _ (by rw [setCol_rows]; exact hr),
      setCol_column_ne _ _ _ _ (by decide), setCol_val_ne _ _ _ _ _ (by decide)]
  · show (get_character_ranks t).val r ("betweenness" ++ "_rank") = _
    simp only [get_character_ranks, List.foldl_cons, List.foldl_nil]
    rw [setCol_val_ne _ _ _ _ _ (by decide),
      setCol_val_self _ _ _ _ (by rw [setCol_rows, setCol_rows]; exact hr),
      setCol_column_ne _ _ _ _ (by decide), setCol_column_ne _ _ _ _ (by decide),
      setCol_val_ne _ _ _ _ _ (by decide), setCol_val_ne _ _ _ _ _ (by decide)]
  · show (get_character_ranks t).val r ("frequency" ++ "_rank") = _
    simp only [get_character_ranks, List.foldl_cons, List.foldl_nil]
    rw [setCol_val_self _ _ _ _
        (by rw [setCol_rows, setCol_rows, setCol_rows]; exact hr),
      setCol_column_ne _ _ _ _ (by decide), setCol_column_ne _ _ _ _ (by decide),
      setCol_column_ne _ _ _ _ (by decide), setCol_val_ne _ _ _ _ _ (by decide),
      setCol_val_ne _ _ _ _ _ (by decide), setCol_val_ne _ _ _ _ _ (by decide)]

/-- C9: for each of the four metrics, the rank column written by
`get_character_ranks` is a dense descending ranking: ties in the raw value
share a rank, a row whose value is maximal gets rank 1, the next-lower
distinct value's rank is the previous rank plus one, every rank is a
natural number between 1 and the number of distinct raw values, and every
rank in that interval is attained by some row. -/
theorem character_ranks_dense (t : Table) (m : String)
    (hm : m ∈ ["degree", "closeness", "betweenness", "frequency"]) :
    (∀ r ∈ t.rows, ∀ r2 ∈ t.rows, t.val r m = t.val r2 m →
      (get_character_ranks t).val r (m ++ "_rank") =
        (get_character_ranks t).val r2 (m ++ "_rank")) ∧
    (∀ r ∈ t.rows, (∀ r2 ∈ t.rows, t.val r2 m ≤ t.val r m) →
      (get_character_ranks t).val r (m ++ "_rank") = 1) ∧
    (∀ r ∈ t.rows, ∀ r2 ∈ t.rows, t.val r2 m < t.val r m →
      (∀ r3 ∈ t.rows, ¬(t.val r2 m < t.val r3 m ∧ t.val r3 m < t.val r m)) →
      (get_character_ranks t).val r2 (m ++ "_rank") =
        (get_character_ranks t).val r (m ++ "_rank") + 1) ∧
    (∀ r ∈ t.rows, ∃ k : ℕ,
      (get_character_ranks t).val r (m ++ "_rank") = ((k : ℕ) : ℚ) ∧
      1 ≤ k ∧ k ≤ (t.column m).dedup.length) ∧
    (∀ k : ℕ, 1 ≤ k → k ≤ (t.column m).dedup.length →
      ∃ r ∈ t.rows, (get_character_ranks t).val r (m ++ "_rank") = ((k : ℕ) : ℚ)) := by
  refine ⟨?_, ?_, ?_, ?_, ?_⟩
  · intro r hr r2 hr2 heq
    rw [get_character_ranks_val t m hm r hr, get_character_ranks_val t m hm r2 hr2,
      heq]
  · intro r hr hmax
    rw [get_character_ranks_val t m hm r hr, denseRank_eq_rkNat,
      rkNat_max (t.column m) (t.val r m) ?_]
    · norm_num
    · intro v hv
      obtain ⟨r2, hr2, hvr2⟩ := List.mem_map.mp hv
      rw [← hvr2]
      exact hmax r2 hr2
  · intro r hr r2 hr2 hlt hnb
    rw [get_character_ranks_val t m hm r hr, get_character_ranks_val t m hm r2 hr2,
      denseRank_eq_rkNat, denseRank_eq_rkNat,
      rkNat_adjacent (t.column m) (t.val r m) (t.val r2 m)
        (List.mem_map.mpr ⟨r, hr, rfl⟩) hlt ?_]
    · push_cast
      ring
    · intro v hv hvb
      obtain ⟨r3, hr3, hvr3⟩ := List.mem_map.mp hv
      rw [← hvr3] at hvb
      exact hnb r3 hr3 hvb
  · intro r hr
    refine ⟨rkNat (t.column m) (t.val r m), ?_, ?_, ?_⟩
    · rw [get_character_ranks_val t m hm r hr, denseRank_eq_rkNat]
    · rw [rkNat]
      omega
    · exact rkNat_le (t.column m) (t.val r m) (List.mem_map.mpr ⟨r, hr, rfl⟩)
  · intro k hk1 hk2
    obtain ⟨x, hx, hxk⟩ := rkNat_surjective (t.column m) k hk1 hk2
    obtain ⟨r, hr, hrx⟩ := List.mem_map.mp hx
    refine ⟨r, hr, ?_⟩
    rw [get_character_ranks_val t m hm r hr, hrx, denseRank_eq_rkNat, hxk]

/-- A three-row, one-column table on which the dense-ranking theorem is
instantiated. -/
def rankWitTable : Table :=
  ⟨["A", "B", "C"], ["degree"], fun r _ => if r = "A" then 3 else 2⟩

/-- C9 witness: in a concrete table with degree values A=3, B=2, C=2, the
row with the maximal value gets degree rank 1 and the next-lower distinct
value gets rank 2, by the dense-ranking theorem. -/
theorem character_ranks_dense_witness :
    (get_character_ranks rankWitTable).val "A" ("degree" ++ "_rank") = 1 ∧
    (get_character_ranks rankWitTable).val "B" ("degree" ++ "_rank") = 2 := by
  obtain ⟨hties, hmax, hadj, hbounds, hsurj⟩ :=
    character_ranks_dense rankWitTable "degree" (by decide)
  have h1 : (get_character_ranks rankWitTable).val "A" ("degree" ++ "_rank") = 1 :=
    hmax "A" (by decide) (by decide)
  refine ⟨h1, ?_⟩
  have h2 := hadj "A" (by decide) "B" (by decide) (by decide) (by decide)
  rw [h2, h1]
  norm_num

end Dramavis
